import Mathlib

/-!
Verification of the blob-storage core of this repository: the mode resolver,
path codec, proxy-URL builder/extractor, memory backend, remote (Supabase)
backend and the cursor-based list pager, shallowly embedded from the
TypeScript source (`lib/blob.ts`, `utils/blob-env.ts`, `lib/secrets.server.ts`).

Strings are modelled as Lean `String` (a list of Unicode scalar values);
JavaScript string primitives (`split`, `slice`, `startsWith`, `toLowerCase`,
`encodeURIComponent`, `decodeURIComponent`, the WHATWG `URL` parser) are
modelled explicitly below, operating on the character list.  JS string
indices are UTF-16 code units; for the ASCII delimiters and bounded slices
used by this code the character-level model coincides.  Buffers are lists of
bytes (`List Nat`).  Fallible code returns `Except String`; the carried
string is the thrown `Error`'s message.  `fetch` and the clock/randomness
are modelled by explicit parameters (`RemoteWorld`, `now`, token strings).
-/

/-! ## JavaScript string primitive models -/

/-- Model of JS `String.prototype.startsWith`. -/
def jsStartsWith (s pre : String) : Bool :=
  pre.toList.isPrefixOf s.toList

/-- Model of JS `String.prototype.slice(0, n)` (character level). -/
def strTake (s : String) (n : Nat) : String :=
  String.mk (s.toList.take n)

/-- Model of JS `String.prototype.slice(n)` (character level). -/
def strDrop (s : String) (n : Nat) : String :=
  String.mk (s.toList.drop n)

/-- Model of JS `String.prototype.toLowerCase` (ASCII case mapping). -/
def toLowerStr (s : String) : String :=
  String.mk (s.toList.map Char.toLower)

/-- Model of JS `String.prototype.toUpperCase` (ASCII case mapping). -/
def toUpperStr (s : String) : String :=
  String.mk (s.toList.map Char.toUpper)

/-- Model of JS `String.prototype.trim`. -/
def jsTrim (s : String) : String :=
  String.mk (((s.toList.dropWhile Char.isWhitespace).reverse.dropWhile
    Char.isWhitespace).reverse)

/-- Model of JS `str.split(sep)` for a single-character separator:
`"".split(c) = [""]`, adjacent separators yield empty segments. -/
def jsSplit (sep : Char) : List Char → List (List Char)
  | [] => [[]]
  | c :: rest =>
    let r := jsSplit sep rest
    if c = sep then [] :: r
    else
      match r with
      | s :: ss => (c :: s) :: ss
      | [] => [[c]]

/-- `Array.prototype.join(sep)` for the segment lists produced by `jsSplit`. -/
def joinSep (sep : Char) : List (List Char) → List Char
  | [] => []
  | [s] => s
  | s :: ss => s ++ sep :: joinSep sep ss

/-- JS `<` on strings compares code units lexicographically; on the scalar
values this code compares it is character-by-character comparison.  This is
the order of the pager's cursor test `entry.pathname > cursor`.  It is NOT
the order of the pager's sort comparator: default-locale `localeCompare` is
ICU collation, a different ordering, kept abstract (see `blobCmp`). -/
def charListLt : List Char → List Char → Bool
  | [], [] => false
  | [], _ :: _ => true
  | _ :: _, [] => false
  | a :: as, b :: bs =>
    if a < b then true
    else if b < a then false
    else charListLt as bs

/-- Model of JS `a < b` on strings. -/
def jsStrLt (a b : String) : Bool :=
  charListLt a.toList b.toList

/-- `a <= b` on strings, as the sort comparator `localeCompare <= 0` induces. -/
def jsStrLe (a b : String) : Bool :=
  !(jsStrLt b a)

/-! ## Percent encoding (encodeURIComponent / decodeURIComponent) -/

/-- The UTF-8 bytes of one scalar value, by the standard case analysis. -/
def charUtf8 (c : Char) : List Nat :=
  let n := c.toNat
  if n < 0x80 then [n]
  else if n < 0x800 then [0xC0 + n / 64, 0x80 + n % 64]
  else if n < 0x10000 then [0xE0 + n / 4096, 0x80 + n / 64 % 64, 0x80 + n % 64]
  else [0xF0 + n / 262144, 0x80 + n / 4096 % 64, 0x80 + n / 64 % 64, 0x80 + n % 64]

/-- Uppercase hex digit for a value below 16. -/
def hexDigit (n : Nat) : Char :=
  if n < 10 then Char.ofNat (48 + n) else Char.ofNat (55 + n)

/-- Value of a hex digit (both cases accepted, as `decodeURIComponent` does). -/
def hexVal (c : Char) : Option Nat :=
  if '0' ≤ c ∧ c ≤ '9' then some (c.toNat - 48)
  else if 'A' ≤ c ∧ c ≤ 'F' then some (c.toNat - 55)
  else if 'a' ≤ c ∧ c ≤ 'f' then some (c.toNat - 87)
  else none

/-- The characters `encodeURIComponent` leaves unescaped:
`A–Z a–z 0–9 - _ . ! ~ * ' ( )`. -/
def isUnreservedChar (c : Char) : Bool :=
  c.isAlphanum || c = '-' || c = '_' || c = '.' || c = '!' || c = '~' ||
    c = '*' || c = Char.ofNat 39 || c = '(' || c = ')'

/-- Percent-escape one byte. -/
def pctByte (b : Nat) : List Char :=
  ['%', hexDigit (b / 16), hexDigit (b % 16)]

/-- `encodeURIComponent` on one character: unreserved characters pass
through, all others are escaped as the percent-encoded UTF-8 bytes. -/
def encChar (c : Char) : List Char :=
  if isUnreservedChar c then [c] else (charUtf8 c).map pctByte |>.flatten

/-- Model of JS `encodeURIComponent`. -/
def encodeURIComponentStr (s : String) : String :=
  String.mk ((s.toList.map encChar).flatten)

/-- A UTF-8 continuation byte. -/
def isCont (b : Nat) : Bool :=
  decide (0x80 ≤ b) && decide (b < 0xC0)

/-- One UTF-8-encoded scalar value at the head of a byte list: the
decoded code point and the remaining bytes.  Rejects overlong forms,
surrogates and out-of-range values, as the JS URI decoder does; `none`
models a thrown `URIError`. -/
def utf8DecodeOne : List Nat → Option (Nat × List Nat)
  | [] => none
  | b :: rest =>
    if b < 0x80 then some (b, rest)
    else if b < 0xC2 then none
    else if b < 0xE0 then
      match rest with
      | b1 :: rest2 =>
        if isCont b1 then some ((b - 0xC0) * 64 + (b1 - 0x80), rest2)
        else none
      | [] => none
    else if b < 0xF0 then
      match rest with
      | b1 :: b2 :: rest2 =>
        let n := (b - 0xE0) * 4096 + (b1 - 0x80) * 64 + (b2 - 0x80)
        if isCont b1 && isCont b2 && decide (0x800 ≤ n) &&
            !(decide (0xD800 ≤ n) && decide (n < 0xE000)) then
          some (n, rest2)
        else none
      | _ => none
    else if b < 0xF5 then
      match rest with
      | b1 :: b2 :: b3 :: rest2 =>
        let n := (b - 0xF0) * 262144 + (b1 - 0x80) * 4096 +
          (b2 - 0x80) * 64 + (b3 - 0x80)
        if isCont b1 && isCont b2 && isCont b3 && decide (0x10000 ≤ n) &&
            decide (n < 0x110000) then
          some (n, rest2)
        else none
      | _ => none
    else none

/-- Strict UTF-8 decoding of a byte list, one scalar value at a time;
the fuel is an upper bound on the number of scalar values (one byte each
at least). -/
def utf8DecodeAux : Nat → List Nat → Option (List Char)
  | _, [] => some []
  | 0, _ :: _ => none
  | fuel + 1, b :: rest =>
    match utf8DecodeOne (b :: rest) with
    | none => none
    | some (n, rest2) =>
      (utf8DecodeAux fuel rest2).map fun cs => Char.ofNat n :: cs

/-- Strict UTF-8 decoding of a byte list (rejects overlong forms,
surrogates and out-of-range values, as the JS URI decoder does).
`none` models a thrown `URIError`. -/
def utf8Decode (l : List Nat) : Option (List Char) :=
  utf8DecodeAux l.length l

/-- First pass of `decodeURIComponent`: translate the character stream to a
byte stream (`%hh` triplets to the named byte, plain characters to their
UTF-8 bytes).  `none` models a thrown `URIError` (truncated or non-hex
escape). -/
def uriTranslate : List Char → Option (List Nat)
  | [] => some []
  | c :: rest =>
    if c = '%' then
      match rest with
      | h1 :: h2 :: rest2 =>
        match hexVal h1, hexVal h2 with
        | some a, some b =>
          (uriTranslate rest2).map fun bs => (a * 16 + b) :: bs
        | _, _ => none
      | _ => none
    else (uriTranslate rest).map fun bs => charUtf8 c ++ bs

/-- Model of JS `decodeURIComponent`; `none` models a thrown `URIError`.
Percent-escapes are translated to bytes and the byte stream re-decoded as
UTF-8; since UTF-8 is prefix-free and self-synchronising this coincides
with the JS behaviour (which decodes only the escaped runs) on every input
the model can represent. -/
def decodeURIComponentStr (s : String) : Option String :=
  (uriTranslate s.toList).bind fun bs =>
    (utf8Decode bs).map fun cs => String.mk cs

/-! ## Secrets / configuration model (`lib/secrets.server.ts`)

The secrets loader is modelled abstractly as the parsed key-value map
(`Env`): file reading/caching is out of scope (the spec treats the loader
as an external collaborator supplying lookups), but key normalisation,
the missing-value check and the enum check are embedded from the source. -/

/-- The parsed secrets map, keyed by normalised key. -/
def Env : Type := String → Option String

/-- `normalizeKey`: trim, collapse each whitespace run to `_`, uppercase. -/
def collapseWs : Bool → List Char → List Char
  | _, [] => []
  | prevWs, c :: rest =>
    if c.isWhitespace then
      if prevWs then collapseWs true rest
      else '_' :: collapseWs true rest
    else c :: collapseWs false rest

/-- `normalizeKey(input)` from `secrets.server.ts`. -/
def normalizeKey (s : String) : String :=
  toUpperStr (String.mk (collapseWs false (jsTrim s).toList))

/-- `getSecret(key)`: normalised lookup; `none` is JS `undefined`. -/
def getSecretM (env : Env) (key : String) : Option String :=
  env (normalizeKey key)

/-- `requireSecret(key)`: throws when the value is absent or empty
(`!value`), with a message naming the key. -/
def requireSecretM (env : Env) (key : String) : Except String String :=
  match getSecretM env key with
  | some v =>
    if v = "" then
      .error ("Missing required secret " ++ key ++
        ". Add it to tmpkeys.txt before deploying.")
    else .ok v
  | none =>
    .error ("Missing required secret " ++ key ++
      ". Add it to tmpkeys.txt before deploying.")

/-- `requireSecretEnum(key, allowed)`: case-insensitive match against the
allowed options, returning the canonical option; otherwise throws with a
message naming the key and the received value. -/
def requireSecretEnumM (env : Env) (key : String) (allowed : List String) :
    Except String String :=
  match requireSecretM env key with
  | .error e => .error e
  | .ok v =>
    match allowed.find? fun o => toLowerStr o == toLowerStr v with
    | some m => .ok m
    | none =>
      .error ("Invalid value for " ++ key ++ ". Expected one of " ++
        ", ".intercalate allowed ++ ", received " ++ v ++ ".")

/-! ## Storage mode (`utils/blob-env.ts`) -/

/-- The two storage modes (`STORAGE_MODE_OPTIONS`). -/
inductive StorageMode where
  | supabase
  | memory
deriving DecidableEq, Repr

/-- `getStorageMode()`: `requireSecretEnum('STORAGE_MODE', ['supabase',
'memory'])`, with the matched option read back as a `StorageMode`. -/
def getStorageMode (env : Env) : Except String StorageMode :=
  match requireSecretEnumM env "STORAGE_MODE" ["supabase", "memory"] with
  | .error e => .error e
  | .ok s => if s = "supabase" then .ok .supabase else .ok .memory

/-- `resolveMode()` from `lib/blob.ts`: calls `getStorageMode()` and, in
the catch, logs and rethrows the same `Error` unchanged (the non-`Error`
rewrap branch is unreachable since `getStorageMode` only throws `Error`s),
so it is extensionally `getStorageMode`. -/
def resolveMode (env : Env) : Except String StorageMode :=
  getStorageMode env

/-- `assertBlobEnv()`: resolves the mode and, in supabase mode, requires
the three remote credentials. -/
def assertBlobEnv (env : Env) : Except String Unit :=
  match getStorageMode env with
  | .error e => .error e
  | .ok .memory => .ok ()
  | .ok .supabase =>
    match requireSecretM env "SUPABASE_URL" with
    | .error e => .error e
    | .ok _ =>
      match requireSecretM env "SUPABASE_SERVICE_ROLE_KEY" with
      | .error e => .error e
      | .ok _ =>
        match requireSecretM env "SUPABASE_STORAGE_BUCKET" with
        | .error e => .error e
        | .ok _ => .ok ()

/-! ## Path codec and proxy URLs (`lib/blob.ts`) -/

/-- `BLOB_PROXY_PREFIX` (the fixed proxy path literal). -/
def blobProxyRoot : String := "/api/blob/"

/-- `normalizePath(path)`: strip leading slashes (`replace(/^\/+/, '')`). -/
def normalizePath (path : String) : String :=
  String.mk (path.toList.dropWhile fun c => c == '/')

/-- `encodePathForUrl(path)`: split on `/`, `encodeURIComponent` each
segment, re-join with `/`. -/
def encodePathForUrl (path : String) : String :=
  String.mk (joinSep '/'
    ((jsSplit '/' path.toList).map fun seg => (seg.map encChar).flatten))

/-- `lastIndexOf('.')` on a character list (JS semantics: last occurrence,
or none). -/
def lastIndexOfDot : List Char → Option Nat
  | [] => none
  | c :: rest =>
    match lastIndexOfDot rest with
    | some i => some (i + 1)
    | none => if c == '.' then some 0 else none

/-- `applyRandomSuffix(path)`: the `Math.random()`/`Date.now()` components
of the inserted token are explicit parameters `randTok`/`timeTok`
(the source builds the token as a dash, the random component, a dash and
the time component). -/
def applyRandomSuffix (randTok timeTok : String) (path : String) : String :=
  let normalized := normalizePath path
  let tok := "-" ++ randTok ++ "-" ++ timeTok
  match lastIndexOfDot normalized.toList with
  | none => normalized ++ tok
  | some i =>
    String.mk (normalized.toList.take i) ++ tok ++
      String.mk (normalized.toList.drop i)

/-- The regex test `/^https?:/i.test(input)`. -/
def httpTest (s : String) : Bool :=
  jsStartsWith (toLowerStr s) "http:" || jsStartsWith (toLowerStr s) "https:"

/-- The origin and pathname of a parsed URL. -/
structure UrlParts where
  origin : String
  pathname : String
deriving DecidableEq, Repr

/-- Model of the WHATWG `new URL(absolute)` parser (platform primitive),
for absolute `http(s)://host/path` forms: lowercases scheme and host,
defaults the path to `/`, cuts the path at `?`/`#`; `none` models the
thrown `TypeError` (empty host or missing `://`).  Ports, userinfo and
dot-segment normalisation are not modelled; no theorem below depends on
them. -/
def urlParse (s : String) : Option UrlParts :=
  let ls := s.toList
  let low := toLowerStr s
  let restOpt : Option (String × List Char) :=
    if jsStartsWith low "https://" then some ("https", ls.drop 8)
    else if jsStartsWith low "http://" then some ("http", ls.drop 7)
    else none
  match restOpt with
  | none => none
  | some (scheme, rest) =>
    let hostChars := rest.takeWhile fun c => c != '/' && c != '?' && c != '#'
    if hostChars.isEmpty then none
    else
      let after := rest.drop hostChars.length
      let pathChars := after.takeWhile fun c => c != '?' && c != '#'
      some
        { origin := scheme ++ "://" ++ toLowerStr (String.mk hostChars)
          pathname := if pathChars.isEmpty then "/" else String.mk pathChars }

/-- Model of `new URL(rel, base)` (platform primitive) for the relative
forms this code produces (an encoded key, no scheme, no `..` segments):
a root-relative path replaces the base path, otherwise the key is resolved
against the base path's directory. -/
def jsUrlResolve (base rel : String) : Option String :=
  match urlParse base with
  | none => none
  | some b =>
    if jsStartsWith rel "/" then some (b.origin ++ rel)
    else
      let dir := String.mk
        (((b.pathname.toList.reverse.dropWhile fun c => c != '/').reverse))
      some (b.origin ++ dir ++ rel)

/-- The single (non-global) regex replace `/\/+$|^\/+/`: the first match,
scanning left to right, is the leading slash run if any, else the trailing
slash run; a string of only slashes is removed entirely. -/
def stripEdgeSlashesOnce (s : String) : String :=
  let ls := s.toList
  if !ls.isEmpty && ls.all (fun c => c == '/') then ""
  else if jsStartsWith s "/" then String.mk (ls.dropWhile fun c => c == '/')
  else if ls.getLast? == some '/' then
    String.mk ((ls.reverse.dropWhile fun c => c == '/').reverse)
  else s

/-- Helper of `collapseFirstSlashRun`. -/
def collapseFirstSlashRunAux : List Char → List Char
  | [] => []
  | c :: rest =>
    if c = '/' then '/' :: (rest.dropWhile fun x => x == '/')
    else c :: collapseFirstSlashRunAux rest

/-- The single (non-global) regex replace `/\/+/ -> '/'`: collapses the
first slash run only. -/
def collapseFirstSlashRun (s : String) : String :=
  String.mk (collapseFirstSlashRunAux s.toList)

/-- `buildProxyUrl(path)`: proxy prefix plus the percent-encoded key,
unless a `PUBLIC_STORAGE_BASE_URL` override is configured (full-URL form
resolved against the base, path-fragment form spliced around slashes).
An unparsable full-URL override is logged and falls through to the
default prefix. -/
def buildProxyUrl (env : Env) (path : String) : String :=
  let encoded := encodePathForUrl (normalizePath path)
  match getSecretM env "PUBLIC_STORAGE_BASE_URL" with
  | some ov =>
    if ov ≠ "" && httpTest ov then
      match jsUrlResolve ov encoded with
      | some u => u
      | none => blobProxyRoot ++ encoded
    else if jsTrim ov ≠ "" then
      let trimmed := stripEdgeSlashesOnce (jsTrim ov)
      collapseFirstSlashRun ("/" ++ trimmed ++ "/" ++ encoded)
    else blobProxyRoot ++ encoded
  | none => blobProxyRoot ++ encoded

/-- The message of a `URIError` escaping `decodeURIComponent`. -/
def uriErrorMsg : String := "URIError: URI malformed"

/-- `extractPathFromUrl(input)`: empty and `data:` inputs map to null;
a proxy-prefixed path is percent-decoded (a `URIError` here propagates —
`.error`); an absolute http(s) URL is parsed and matched against the proxy
prefix and the configured base override (a `URIError` inside the `try` is
caught and yields null or falls through); anything else is normalised
as-is. -/
def extractPathFromUrl (env : Env) (input : String) :
    Except String (Option String) :=
  if input = "" then .ok none
  else if jsStartsWith input "data:" then .ok none
  else if jsStartsWith input blobProxyRoot then
    match decodeURIComponentStr (strDrop input blobProxyRoot.toList.length) with
    | some s => .ok (some s)
    | none => .error uriErrorMsg
  else if httpTest input then
    match urlParse input with
    | none => .ok none
    | some u =>
      if jsStartsWith u.pathname blobProxyRoot then
        match decodeURIComponentStr
            (strDrop u.pathname blobProxyRoot.toList.length) with
        | some s => .ok (some s)
        | none => .ok none
      else
        match getSecretM env "PUBLIC_STORAGE_BASE_URL" with
        | some ov =>
          if ov ≠ "" then
            match urlParse ov with
            | some base =>
              if base.origin == u.origin &&
                  jsStartsWith u.pathname base.pathname then
                match decodeURIComponentStr (normalizePath
                    (strDrop u.pathname base.pathname.toList.length)) with
                | some s => .ok (some s)
                | none => .ok (some (normalizePath input))
              else .ok (some (normalizePath input))
            | none => .ok (some (normalizePath input))
          else .ok (some (normalizePath input))
        | none => .ok (some (normalizePath input))
  else .ok (some (normalizePath input))

/-! ## Memory backend (`memoryStore : Map<string, MemoryBlobRecord>`)

The JS `Map` is modelled as an association list in insertion order with
unique keys: `set` overwrites in place or appends, `get` finds, `delete`
removes and reports existence. -/

/-- A stored object of the memory backend. -/
structure MemoryBlobRecord where
  buffer : List Nat
  contentType : String
  uploadedAt : String
  size : Nat
  cacheControl : Option String
deriving DecidableEq, Repr

/-- The memory backend's map. -/
def Store : Type := List (String × MemoryBlobRecord)

/-- `Map.prototype.get`. -/
def mapGet (m : Store) (k : String) : Option MemoryBlobRecord :=
  match m.find? fun kv => kv.1 == k with
  | some kv => some kv.2
  | none => none

/-- `Map.prototype.set`: overwrite in place, else append. -/
def mapSet (m : Store) (k : String) (v : MemoryBlobRecord) : Store :=
  match m with
  | [] => [(k, v)]
  | kv :: rest =>
    if kv.1 = k then (k, v) :: rest else kv :: mapSet rest k v

/-- `Map.prototype.delete`: the new map and whether the key existed. -/
def mapDelete (m : Store) (k : String) : Store × Bool :=
  match m with
  | [] => ([], false)
  | kv :: rest =>
    if kv.1 = k then (rest, true)
    else
      let r := mapDelete rest k
      (kv :: r.1, r.2)

/-! ## Remote (Supabase) backend model

`fetch` is modelled by a `RemoteWorld` carrying the responses the backend
would give to each request of the operation under study; credentials are
the `SupabaseState` resolved from configuration and cached. -/

/-- Credentials resolved from configuration (`SupabaseState`). -/
structure SupabaseState where
  url : String
  bucket : String
  key : String
deriving DecidableEq, Repr

/-- A fetch response observed through `status` and `text()`. -/
structure HttpResponse where
  status : Nat
  body : String
deriving DecidableEq, Repr

/-- A fetch response to a download, observed through status, bytes and
the headers this code reads. -/
structure DownloadResponse where
  status : Nat
  body : String
  bytes : List Nat
  contentType : Option String
  cacheControl : Option String
  lastModified : Option String
  etag : Option String
  contentLength : Option Nat
deriving DecidableEq, Repr

/-- One raw listing entry of the remote listing endpoint's `data` array. -/
structure SupaEntry where
  name : String
  updatedAt : Option String
  createdAt : Option String
  size : Option Nat
deriving DecidableEq, Repr

/-- The remote responses for the operation under study. -/
structure RemoteWorld where
  uploadResp : HttpResponse
  downloadResp : DownloadResponse
  deleteResp : HttpResponse
  listResp : HttpResponse
  listObjects : List SupaEntry
deriving DecidableEq, Repr

/-- `Response.ok`: status in 200–299. -/
def resOk (status : Nat) : Bool :=
  decide (200 ≤ status) && decide (status ≤ 299)

/-- `ensureSupabase()`: returns the cached state if set; otherwise asserts
the blob environment and requires the three credentials (trailing slashes
stripped from the URL).  The write-back into the module-level cache is the
returned state. -/
def ensureSupabase (env : Env) (cache : Option SupabaseState) :
    Except String SupabaseState :=
  match cache with
  | some st => .ok st
  | none =>
    match assertBlobEnv env with
    | .error e => .error e
    | .ok _ =>
      match requireSecretM env "SUPABASE_URL" with
      | .error e => .error e
      | .ok url =>
        match requireSecretM env "SUPABASE_SERVICE_ROLE_KEY" with
        | .error e => .error e
        | .ok key =>
          match requireSecretM env "SUPABASE_STORAGE_BUCKET" with
          | .error e => .error e
          | .ok bucket =>
            .ok { url := String.mk ((url.toList.reverse.dropWhile
                    fun c => c == '/').reverse)
                  bucket := bucket
                  key := key }

/-- `supabaseUpload`: POST the buffer; non-2xx throws with the status and
the response body truncated to 200 characters. -/
def supabaseUpload (world : RemoteWorld) (state : SupabaseState)
    (path : String) (_body : List Nat) (_contentType : String)
    (_cacheControl : Option String) : Except String Unit :=
  let _endpoint := state.url ++ "/storage/v1/object/" ++
    encodePathForUrl (state.bucket ++ "/" ++ normalizePath path)
  let res := world.uploadResp
  if resOk res.status then .ok ()
  else
    .error ("Supabase upload failed with status " ++ toString res.status ++
      ": " ++ strTake res.body 200)

/-- `supabaseDelete`: DELETE; `!res.ok && status !== 404` throws, so 404
is silent success. -/
def supabaseDelete (world : RemoteWorld) (state : SupabaseState)
    (path : String) : Except String Unit :=
  let _endpoint := state.url ++ "/storage/v1/object/" ++
    encodePathForUrl (state.bucket ++ "/" ++ normalizePath path)
  let res := world.deleteResp
  if !resOk res.status && res.status ≠ 404 then
    .error ("Supabase delete failed with status " ++ toString res.status ++
      ": " ++ strTake res.body 200)
  else .ok ()

/-- `supabaseList`: POST to the listing endpoint; non-2xx throws; a missing
or malformed `data` array is the empty list (already folded into
`world.listObjects`). -/
def supabaseList (world : RemoteWorld) (state : SupabaseState)
    (_pfx : String) (_limit : Nat) : Except String (List SupaEntry) :=
  let _endpoint := state.url ++ "/storage/v1/object/list/" ++
    (state.bucket.toList.map encChar).flatten.asString
  let res := world.listResp
  if !resOk res.status then
    .error ("Supabase list failed with status " ++ toString res.status ++
      ": " ++ strTake res.body 200)
  else .ok world.listObjects

/-! ## Listings and the cursor pager -/

/-- A listed blob (`ListedBlob`). -/
structure ListedBlob where
  pathname : String
  url : String
  downloadUrl : String
  uploadedAt : Option String
  size : Option Nat
deriving DecidableEq, Repr

/-- The result of one pager call (`{ slice, hasMore, nextCursor }`). -/
structure CursorPage where
  slice : List ListedBlob
  hasMore : Bool
  nextCursor : Option String
deriving DecidableEq, Repr

/-- The pager's sort comparator `(a, b) => a.pathname.localeCompare(b.pathname)`.
Default-locale `localeCompare` is a platform primitive (ICU collation) and
is a DIFFERENT ordering from the code-unit `>` of the pager's cursor test,
so the pager is embedded parametrically in `lc`, the collation's induced
"sorts no later than" relation on keys; each theorem assumes of `lc` only
what it states (totality and transitivity, or agreement with code-unit
order).  `Array.prototype.sort` is stable, as is `List.mergeSort`. -/
def blobCmp (lc : String → String → Bool) (a b : ListedBlob) : Bool :=
  lc a.pathname b.pathname

/-- `filterByCursor(blobs, limit, cursor)`: sort by pathname under the
locale collation `lc`; with a (truthy, hence non-empty) cursor start at the
first entry whose key is code-unit-greater than the cursor (`findIndex`
returning -1 becomes the length); slice up to `limit`; report whether
entries remain and the last pathname of a further page.  Note the two
orderings: the sort is `localeCompare`, the cursor test is code-unit `>`. -/
def filterByCursor (lc : String → String → Bool) (blobs : List ListedBlob)
    (limit : Nat) (cursor : Option String) : CursorPage :=
  let sorted := blobs.mergeSort (blobCmp lc)
  let startIndex : Nat :=
    match cursor with
    | some c =>
      if c = "" then 0
      else sorted.findIdx fun e => jsStrLt c e.pathname
    | none => 0
  let slice := (sorted.drop startIndex).take limit
  let hasMore := decide (startIndex + slice.length < sorted.length)
  let nextCursor :=
    if hasMore then (slice.getLast?).map fun e => e.pathname else none
  { slice := slice, hasMore := hasMore, nextCursor := nextCursor }

/-- The pager as the spec's sentence words it: sort ascending by key; start
past everything not strictly greater than the cursor; take up to `limit`;
`hasMore` iff entries remain beyond the page; `nextCursor` the last key of
the page when `hasMore`.  The spec speaks of a single ascending key order
throughout, rendered here as code-unit order (the order of the source's
cursor test); the source pager is compared with this under the hypothesis
that the collation agrees with it. -/
def cursorPageSpec (blobs : List ListedBlob) (limit : Nat)
    (cursor : Option String) : CursorPage :=
  let sorted := blobs.mergeSort (blobCmp jsStrLe)
  let tail := match cursor with
    | none => sorted
    | some c => sorted.dropWhile fun e => !(jsStrLt c e.pathname)
  let page := tail.take limit
  let more := decide (page.length < tail.length)
  { slice := page
    hasMore := more
    nextCursor := if more then (page.getLast?).map fun e => e.pathname
      else none }

/-- Successive pager calls, feeding each page's `nextCursor` into the next
call until `hasMore` is false; `none` when the fuel runs out before that. -/
def paginateAux (lc : String → String → Bool) (blobs : List ListedBlob)
    (limit : Nat) : Option String → Nat → Option (List (List ListedBlob))
  | _, 0 => none
  | cursor, fuel + 1 =>
    let r := filterByCursor lc blobs limit cursor
    if r.hasMore then
      (paginateAux lc blobs limit r.nextCursor fuel).map fun pages =>
        r.slice :: pages
    else some [r.slice]

/-- The full cursor walk, with enough fuel for one page per candidate. -/
def paginateAll (lc : String → String → Bool) (blobs : List ListedBlob)
    (limit : Nat) : Option (List (List ListedBlob)) :=
  paginateAux lc blobs limit none (blobs.length + 1)

/-- A fragment of the default-locale collation (ICU root) as Node's
`localeCompare` exhibits it on the ASCII-letter keys used below: letters
compare case-insensitively first (the primary ICU weights put `a` before
`B`), and keys equal up to case fall back to code-unit order (no entry
below compares equal letters of different case, so that tie direction is
immaterial).  The counterexamples instantiate the abstract collation `lc`
with this function. -/
def localeLeAscii (a b : String) : Bool :=
  let ka := a.toList.map Char.toLower
  let kb := b.toList.map Char.toLower
  if ka = kb then jsStrLe a b else !(charListLt kb ka)

/-! ## JS numbers and the public limit clamp -/

/-- A JS number as this code observes it: NaN, the infinities, or a finite
value (every finite double is rational). -/
inductive JSNumber where
  | nan
  | posInf
  | negInf
  | finite (val : ℚ)
deriving DecidableEq, Repr

/-- JS truthiness of a number: `0` and `NaN` are falsy. -/
def jsTruthy : JSNumber → Bool
  | .nan => false
  | .posInf => true
  | .negInf => true
  | .finite v => decide (v ≠ 0)

/-- `Number.isFinite`. -/
def jsIsFinite : JSNumber → Bool
  | .finite _ => true
  | _ => false

/-- `Math.max(1, x)`. -/
def jsMax1 : JSNumber → JSNumber
  | .nan => .nan
  | .posInf => .posInf
  | .negInf => .finite 1
  | .finite v => .finite (max 1 v)

/-- The `listBlobs` limit clamp:
`options.limit && Number.isFinite(options.limit) ? Math.max(1, options.limit) : 100`. -/
def jsEffectiveLimit : Option JSNumber → JSNumber
  | none => .finite 100
  | some l => if jsTruthy l && jsIsFinite l then jsMax1 l else .finite 100

/-- `ToIntegerOrInfinity` as `Array.prototype.slice` applies it to the
limit: truncation.  `jsEffectiveLimit` only ever yields a finite value of
at least 1, so only the finite case is reachable below. -/
def jsLimitToNat : JSNumber → Nat
  | .finite v => (⌊v⌋).toNat
  | _ => 0

/-! ## The blob facade -/

/-- `PutBlobOptions`. -/
structure PutBlobOptions where
  addRandomSuffix : Bool := false
  cacheControlMaxAge : Option JSNumber := none
deriving DecidableEq, Repr

/-- `{ url, downloadUrl }` returned by an upload. -/
structure PutResult where
  url : String
  downloadUrl : String
deriving DecidableEq, Repr

/-- A listing result (`ListBlobResult`). -/
structure ListBlobResult where
  blobs : List ListedBlob
  hasMore : Bool
  cursor : Option String
deriving DecidableEq, Repr

/-- `ListCommandOptions` (`pfx` is the source's `prefix` field). -/
structure ListCommandOptions where
  pfx : Option String := none
  limit : Option JSNumber := none
  cursor : Option String := none

/-- `cacheControlFromSeconds(seconds)`: non-numbers and non-finite values
give no header; otherwise `public, max-age=` with the truncated,
non-negative second count. -/
def cacheControlFromSeconds : Option JSNumber → Option String
  | some (.finite v) => some ("public, max-age=" ++ toString (⌊v⌋).toNat)
  | some _ => none
  | none => none

/-- `buildListedBlob(pathname, record)`. -/
def buildListedBlob (env : Env) (pathname : String)
    (uploadedAt : Option String) (size : Option Nat) : ListedBlob :=
  let proxy := buildProxyUrl env pathname
  { pathname := pathname, url := proxy, downloadUrl := proxy
    uploadedAt := uploadedAt, size := size }

/-- `putBlobFromBuffer(path, buf, contentType, options)`: resolve the mode,
normalise (and optionally suffix) the key, and either store a copy in the
memory map or upload remotely; either way return the proxy URL of the
final key.  `now`/`randTok`/`timeTok` are the clock and randomness. -/
def putBlobFromBuffer (env : Env) (world : RemoteWorld)
    (cache : Option SupabaseState) (store : Store)
    (now randTok timeTok : String) (path : String) (buf : List Nat)
    (contentType : String) (options : PutBlobOptions) :
    Except String (PutResult × Store) := do
  let mode ← resolveMode env
  let targetPath := normalizePath path
  let targetPath :=
    if options.addRandomSuffix then applyRandomSuffix randTok timeTok targetPath
    else targetPath
  let cacheControl := cacheControlFromSeconds options.cacheControlMaxAge
  match mode with
  | .memory =>
    let stored : MemoryBlobRecord :=
      { buffer := buf, contentType := contentType, uploadedAt := now
        size := buf.length, cacheControl := cacheControl }
    let store2 := mapSet store targetPath stored
    let proxy := buildProxyUrl env targetPath
    .ok ({ url := proxy, downloadUrl := proxy }, store2)
  | .supabase => do
    let state ← ensureSupabase env cache
    match supabaseUpload world state targetPath buf contentType cacheControl with
    | .error e => .error e
    | .ok _ =>
      let proxy := buildProxyUrl env targetPath
      .ok ({ url := proxy, downloadUrl := proxy }, store)

/-- `deleteBlob(path)`: memory mode reports whether the key existed;
remote mode deletes (404 silent) and reports true. -/
def deleteBlob (env : Env) (world : RemoteWorld)
    (cache : Option SupabaseState) (store : Store) (path : String) :
    Except String (Bool × Store) := do
  let normalized := normalizePath path
  let mode ← resolveMode env
  match mode with
  | .memory =>
    let r := mapDelete store normalized
    .ok (r.2, r.1)
  | .supabase => do
    let state ← ensureSupabase env cache
    match supabaseDelete world state normalized with
    | .error e => .error e
    | .ok _ => .ok (true, store)

/-- `listMemoryBlobs(prefix, limit, cursor)`: filter the map by prefix in
insertion order, page with `filterByCursor`. -/
def listMemoryBlobs (env : Env) (lc : String → String → Bool)
    (store : Store) (pfxRaw : String)
    (limit : Nat) (cursor : Option String) : ListBlobResult :=
  let np := normalizePath pfxRaw
  let found := (store.filter fun kv =>
      np == "" || jsStartsWith kv.1 np).map fun kv =>
    buildListedBlob env kv.1 (some kv.2.uploadedAt) (some kv.2.size)
  let r := filterByCursor lc found limit cursor
  { blobs := r.slice, hasMore := r.hasMore, cursor := r.nextCursor }

/-- The trailing-slash strip `replace(/\/+$/, '')`. -/
def stripTrailingSlashes (s : String) : String :=
  String.mk ((s.toList.reverse.dropWhile fun c => c == '/').reverse)

/-- `listSupabaseBlobs(prefix, limit, cursor)`: fetch raw entries (with a
floor of 1000 on the requested limit), rebuild each pathname under the
caller's prefix, re-filter by prefix defensively, and page. -/
def listSupabaseBlobs (env : Env) (lc : String → String → Bool)
    (world : RemoteWorld)
    (cache : Option SupabaseState) (pfxRaw : String) (limit : Nat)
    (cursor : Option String) : Except String ListBlobResult := do
  let state ← ensureSupabase env cache
  let np := normalizePath pfxRaw
  match supabaseList world state np (max limit 1000) with
  | .error e => .error e
  | .ok objects =>
    let blobs := objects.map fun entry =>
      let pathname :=
        if np ≠ "" then
          normalizePath (collapseFirstSlashRun
            (stripTrailingSlashes np ++ "/" ++ entry.name))
        else normalizePath entry.name
      buildListedBlob env pathname
        (match entry.updatedAt with
         | some u => some u
         | none => entry.createdAt)
        entry.size
    let filtered :=
      if np ≠ "" then blobs.filter fun e => jsStartsWith e.pathname np
      else blobs
    let r := filterByCursor lc filtered limit cursor
    .ok { blobs := r.slice, hasMore := r.hasMore, cursor := r.nextCursor }

/-- `listBlobs(options)`: clamp the limit at the public interface
(`jsEffectiveLimit`, then the slice's integer conversion), default the
prefix to the empty string, resolve the mode and dispatch. -/
def listBlobs (env : Env) (lc : String → String → Bool)
    (world : RemoteWorld)
    (cache : Option SupabaseState) (store : Store)
    (options : ListCommandOptions) : Except String ListBlobResult := do
  let limit := jsLimitToNat (jsEffectiveLimit options.limit)
  let pfxRaw := options.pfx.getD ""
  let cursor := options.cursor
  let mode ← resolveMode env
  match mode with
  | .memory => .ok (listMemoryBlobs env lc store pfxRaw limit cursor)
  | .supabase => listSupabaseBlobs env lc world cache pfxRaw limit cursor

/-- The environment report (`getBlobEnvironment()`), diagnostics snapshot
omitted (a logging surface). -/
structure BlobEnvironment where
  provider : String
  configured : Bool
  bucket : Option String
  store : Option String
  error : Option String
deriving DecidableEq, Repr

/-- `getBlobEnvironment()`: never throws — the catch folds any
configuration failure into the `error` field. -/
def getBlobEnvironment (env : Env) (cache : Option SupabaseState) :
    BlobEnvironment :=
  match resolveMode env with
  | .error e =>
    { provider := "unknown", configured := false, bucket := none
      store := none, error := some e }
  | .ok .memory =>
    { provider := "memory", configured := true, bucket := none
      store := none, error := none }
  | .ok .supabase =>
    match ensureSupabase env cache with
    | .error e =>
      { provider := "unknown", configured := false, bucket := none
        store := none, error := some e }
    | .ok st =>
      { provider := "supabase", configured := true, bucket := some st.bucket
        store := some st.bucket, error := none }

/-! ## Basic lemmas about the string model -/

@[simp] theorem toList_mkStr (l : List Char) : (String.mk l).toList = l := rfl

@[simp] theorem toList_appendStr (s t : String) :
    (s ++ t).toList = s.toList ++ t.toList := rfl

theorem strEq_of_toList {a b : String} (h : a.toList = b.toList) : a = b := by
  cases a with
  | mk da =>
    cases b with
    | mk db => exact congrArg String.mk h

/-! ### The code-unit string order -/

theorem charListLt_cons (a b : Char) (as bs : List Char) :
    charListLt (a :: as) (b :: bs) =
      if a < b then true else if b < a then false else charListLt as bs := rfl

theorem charListLt_irrefl : ∀ l : List Char, charListLt l l = false
  | [] => rfl
  | a :: as => by
    rw [charListLt_cons, if_neg (lt_irrefl a), if_neg (lt_irrefl a)]
    exact charListLt_irrefl as

theorem charListLt_asymm : ∀ a b : List Char,
    charListLt a b = true → charListLt b a = false
  | [], [] => by intro h; exact absurd h (by simp [charListLt])
  | [], _ :: _ => fun _ => rfl
  | _ :: _, [] => by intro h; exact absurd h (by simp [charListLt])
  | a :: as, b :: bs => by
    rw [charListLt_cons, charListLt_cons]
    rcases lt_trichotomy a b with h | h | h
    · rw [if_pos h, if_neg (lt_asymm h), if_pos h]
      intro _
      rfl
    · subst h
      rw [if_neg (lt_irrefl a), if_neg (lt_irrefl a), if_neg (lt_irrefl a),
        if_neg (lt_irrefl a)]
      exact charListLt_asymm as bs
    · simp only [if_neg (lt_asymm h), if_pos h]
      intro hfalse
      exact absurd hfalse (by simp)

theorem charListLt_trans : ∀ a b c : List Char,
    charListLt a b = true → charListLt b c = true → charListLt a c = true
  | a, [], c => by
    intro h1
    cases a with
    | nil => exact absurd h1 (by simp [charListLt])
    | cons x xs => exact absurd h1 (by simp [charListLt])
  | [], b :: bs, c => by
    intro _ h2
    cases c with
    | nil => exact absurd h2 (by simp [charListLt])
    | cons y ys => rfl
  | a :: as, b :: bs, [] => by
    intro _ h2
    exact absurd h2 (by simp [charListLt])
  | a :: as, b :: bs, c :: cs => by
    rw [charListLt_cons, charListLt_cons, charListLt_cons]
    rcases lt_trichotomy a b with hab | hab | hab
    · rw [if_pos hab]
      rcases lt_trichotomy b c with hbc | hbc | hbc
      · rw [if_pos hbc, if_pos (lt_trans hab hbc)]
        intro _ _
        rfl
      · subst hbc
        rw [if_pos hab]
        intro _ _
        rfl
      · rw [if_neg (lt_asymm hbc), if_pos hbc]
        intro _ hfalse
        exact absurd hfalse (by simp)
    · subst hab
      rw [if_neg (lt_irrefl a), if_neg (lt_irrefl a)]
      rcases lt_trichotomy a c with hac | hac | hac
      · rw [if_pos hac, if_pos hac]
        intro _ _
        rfl
      · subst hac
        rw [if_neg (lt_irrefl a), if_neg (lt_irrefl a), if_neg (lt_irrefl a),
          if_neg (lt_irrefl a)]
        exact charListLt_trans as bs cs
      · rw [if_neg (lt_asymm hac), if_pos hac]
        intro _ hfalse
        exact absurd hfalse (by simp)
    · rw [if_neg (lt_asymm hab), if_pos hab]
      intro hfalse
      exact absurd hfalse (by simp)

theorem charListLt_connex : ∀ a b : List Char,
    charListLt a b = false → charListLt b a = false → a = b
  | [], [] => fun _ _ => rfl
  | [], b :: bs => by
    intro h1
    exact absurd h1 (by simp [charListLt])
  | a :: as, [] => by
    intro _ h2
    exact absurd h2 (by simp [charListLt])
  | a :: as, b :: bs => by
    rw [charListLt_cons, charListLt_cons]
    rcases lt_trichotomy a b with h | h | h
    · rw [if_pos h]
      intro hfalse
      exact absurd hfalse (by simp)
    · subst h
      rw [if_neg (lt_irrefl a), if_neg (lt_irrefl a), if_neg (lt_irrefl a),
        if_neg (lt_irrefl a)]
      intro h1 h2
      rw [charListLt_connex as bs h1 h2]
    · simp only [if_neg (lt_asymm h), if_pos h]
      intro _ hfalse
      exact absurd hfalse (by simp)

theorem jsStrLt_irrefl (a : String) : jsStrLt a a = false :=
  charListLt_irrefl a.toList

theorem jsStrLt_asymm {a b : String} (h : jsStrLt a b = true) :
    jsStrLt b a = false :=
  charListLt_asymm a.toList b.toList h

theorem jsStrLt_trans {a b c : String} (h1 : jsStrLt a b = true)
    (h2 : jsStrLt b c = true) : jsStrLt a c = true :=
  charListLt_trans a.toList b.toList c.toList h1 h2

theorem jsStrLt_connex {a b : String} (h1 : jsStrLt a b = false)
    (h2 : jsStrLt b a = false) : a = b :=
  strEq_of_toList (charListLt_connex a.toList b.toList h1 h2)

theorem jsStrLe_total (a b : String) : (jsStrLe a b || jsStrLe b a) = true := by
  unfold jsStrLe
  by_cases h : jsStrLt b a = true
  · simp [jsStrLt_asymm h]
  · simp [Bool.not_eq_true] at h
    simp [h]

theorem jsStrLe_trans {a b c : String} (h1 : jsStrLe a b = true)
    (h2 : jsStrLe b c = true) : jsStrLe a c = true := by
  unfold jsStrLe at h1 h2 ⊢
  rw [Bool.not_eq_true'] at h1 h2 ⊢
  by_cases hca : jsStrLt c a = true
  · by_cases hbc : jsStrLt b c = true
    · exact absurd (jsStrLt_trans hbc hca) (by simp [h1])
    · have hbc' : jsStrLt b c = false := by
        simpa using hbc
      have heq : b = c := jsStrLt_connex hbc' h2
      subst heq
      exact absurd hca (by simp [h1])
  · simpa using hca

theorem jsStrLt_of_lt_of_le {a b c : String} (h1 : jsStrLt a b = true)
    (h2 : jsStrLe b c = true) : jsStrLt a c = true := by
  unfold jsStrLe at h2
  rw [Bool.not_eq_true'] at h2
  by_cases hac : jsStrLt a c = true
  · exact hac
  · have hac' : jsStrLt a c = false := by
      simpa using hac
    by_cases hca : jsStrLt c a = true
    · exact absurd (jsStrLt_trans hca h1) (by simp [h2])
    · have hca' : jsStrLt c a = false := by
        simpa using hca
      have heq : a = c := jsStrLt_connex hac' hca'
      subst heq
      exact absurd h1 (by simp [h2])

theorem jsStrLe_iff {a b : String} :
    jsStrLe a b = true ↔ jsStrLt a b = true ∨ a = b := by
  unfold jsStrLe
  rw [Bool.not_eq_true']
  constructor
  · intro h
    by_cases hab : jsStrLt a b = true
    · exact Or.inl hab
    · have hab' : jsStrLt a b = false := by
        simpa using hab
      exact Or.inr (jsStrLt_connex hab' h)
  · rintro (h | rfl)
    · exact jsStrLt_asymm h
    · exact jsStrLt_irrefl a

/-! ### lastIndexOf('.') -/

theorem lastIndexOfDot_none : ∀ l : List Char,
    lastIndexOfDot l = none → '.' ∉ l
  | [] => by simp
  | c :: rest => by
    simp only [lastIndexOfDot]
    cases h : lastIndexOfDot rest with
    | some i => simp
    | none =>
      by_cases hc : c = '.'
      · simp [hc]
      · simp only [beq_iff_eq, hc, if_false]
        intro _
        simp only [List.mem_cons, not_or]
        exact ⟨fun he => hc he.symm, lastIndexOfDot_none rest h⟩

theorem lastIndexOfDot_some : ∀ (l : List Char) (i : Nat),
    lastIndexOfDot l = some i →
    ∃ pre post, l = pre ++ '.' :: post ∧ pre.length = i ∧ '.' ∉ post
  | [], i => by simp [lastIndexOfDot]
  | c :: rest, i => by
    simp only [lastIndexOfDot]
    cases h : lastIndexOfDot rest with
    | some j =>
      intro hi
      obtain ⟨pre, post, hl, hlen, hpost⟩ := lastIndexOfDot_some rest j h
      refine ⟨c :: pre, post, ?_, ?_, hpost⟩
      · simp [hl]
      · simp only [Option.some.injEq] at hi
        simp [hlen, ← hi]
    | none =>
      by_cases hc : c = '.'
      · subst hc
        simp only [beq_self_eq_true, if_true, Option.some.injEq]
        intro hi
        exact ⟨[], rest, rfl, by simp [← hi], lastIndexOfDot_none rest h⟩
      · simp [hc]

/-! ## C9: applyRandomSuffix token placement -/

/-- C9: for every path, `applyRandomSuffix` returns the normalized path
with the token (a dash, the random component, a dash, the time component)
appended when the normalized path has no `.`, and otherwise inserted
immediately before the last `.`-delimited extension: the characters before
the insertion point and the extension after it (which contains no further
`.`) are unchanged. -/
theorem applyRandomSuffix_token_placement (randTok timeTok path : String) :
    (Char.ofNat 46 ∉ (normalizePath path).toList →
      applyRandomSuffix randTok timeTok path =
        normalizePath path ++ ("-" ++ randTok ++ "-" ++ timeTok)) ∧
    (Char.ofNat 46 ∈ (normalizePath path).toList →
      ∃ base ext : List Char,
        (normalizePath path).toList = base ++ Char.ofNat 46 :: ext ∧
        Char.ofNat 46 ∉ ext ∧
        (applyRandomSuffix randTok timeTok path).toList =
          base ++ ("-" ++ randTok ++ "-" ++ timeTok).toList ++
            Char.ofNat 46 :: ext) := by
  have hdot : Char.ofNat 46 = '.' := rfl
  rw [hdot]
  cases h : lastIndexOfDot (normalizePath path).toList with
  | none =>
    have hres : applyRandomSuffix randTok timeTok path =
        normalizePath path ++ ("-" ++ randTok ++ "-" ++ timeTok) := by
      simp only [applyRandomSuffix, h]
    constructor
    · intro _
      exact hres
    · intro hmem
      exact absurd hmem (lastIndexOfDot_none _ h)
  | some i =>
    obtain ⟨pre, post, hl, hlen, hpost⟩ := lastIndexOfDot_some _ i h
    have hres : applyRandomSuffix randTok timeTok path =
        String.mk ((normalizePath path).toList.take i) ++
          ("-" ++ randTok ++ "-" ++ timeTok) ++
          String.mk ((normalizePath path).toList.drop i) := by
      simp only [applyRandomSuffix, h]
    constructor
    · intro hnot
      rw [hl] at hnot
      exact absurd (by simp : '.' ∈ pre ++ '.' :: post) hnot
    · intro _
      refine ⟨pre, post, hl, hpost, ?_⟩
      have htake : (normalizePath path).toList.take i = pre := by
        rw [hl, ← hlen]
        exact List.take_left pre ('.' :: post)
      have hdrop : (normalizePath path).toList.drop i = '.' :: post := by
        rw [hl, ← hlen]
        exact List.drop_left pre ('.' :: post)
      rw [hres]
      have hdata : (normalizePath path).data = (normalizePath path).toList := rfl
      simp only [hdata, htake, hdrop]
      simp [List.append_assoc]

/-! ## C5: resolveMode -/

theorem toLowerStr_supabase : toLowerStr "supabase" = "supabase" := rfl

theorem toLowerStr_memory : toLowerStr "memory" = "memory" := rfl

/-- C5: `resolveMode()` returns `supabase` or `memory` exactly when the
configured `STORAGE_MODE` value matches that string case-insensitively,
and otherwise throws an error whose message names `STORAGE_MODE`; by the
return type it never produces any other value. -/
theorem resolveMode_spec (env : Env) :
    (resolveMode env = .ok .supabase ↔
      ∃ v, getSecretM env "STORAGE_MODE" = some v ∧
        toLowerStr v = "supabase") ∧
    (resolveMode env = .ok .memory ↔
      ∃ v, getSecretM env "STORAGE_MODE" = some v ∧
        toLowerStr v = "memory") ∧
    (∀ e, resolveMode env = .error e →
      ∃ s1 s2, e = s1 ++ "STORAGE_MODE" ++ s2) := by
  unfold resolveMode getStorageMode requireSecretEnumM requireSecretM
  cases hv : getSecretM env "STORAGE_MODE" with
  | none =>
    dsimp only
    refine ⟨?_, ?_, ?_⟩
    · constructor
      · intro h
        exact absurd h (by simp)
      · rintro ⟨v, hv', _⟩
        exact absurd hv' (by simp)
    · constructor
      · intro h
        exact absurd h (by simp)
      · rintro ⟨v, hv', _⟩
        exact absurd hv' (by simp)
    · intro e he
      refine ⟨"Missing required secret ",
        ". Add it to tmpkeys.txt before deploying.", ?_⟩
      simp only [Except.error.injEq] at he
      rw [← he]
  | some v =>
    dsimp only
    by_cases hv0 : v = ""
    · subst hv0
      rw [if_pos rfl]
      dsimp only
      refine ⟨?_, ?_, ?_⟩
      · constructor
        · intro h
          exact absurd h (by simp)
        · rintro ⟨v', hv', hlow⟩
          simp only [Option.some.injEq] at hv'
          subst hv'
          exact absurd hlow (by decide)
      · constructor
        · intro h
          exact absurd h (by simp)
        · rintro ⟨v', hv', hlow⟩
          simp only [Option.some.injEq] at hv'
          subst hv'
          exact absurd hlow (by decide)
      · intro e he
        refine ⟨"Missing required secret ",
          ". Add it to tmpkeys.txt before deploying.", ?_⟩
        simp only [Except.error.injEq] at he
        rw [← he]
    · rw [if_neg hv0]
      dsimp only
      by_cases h1 : toLowerStr v = "supabase"
      · have hfind : (["supabase", "memory"].find? fun o =>
            toLowerStr o == toLowerStr v) = some "supabase" := by
          apply List.find?_cons_of_pos
          simp [toLowerStr_supabase, h1]
        rw [hfind]
        dsimp only
        rw [if_pos rfl]
        refine ⟨?_, ?_, ?_⟩
        · simp only [true_iff]
          exact ⟨v, rfl, h1⟩
        · constructor
          · intro h
            exact absurd h (by simp)
          · rintro ⟨v', hv', hlow⟩
            simp only [Option.some.injEq] at hv'
            subst hv'
            rw [h1] at hlow
            exact absurd hlow (by decide)
        · intro e he
          exact absurd he (by simp)
      · by_cases h2 : toLowerStr v = "memory"
        · have e1 : (toLowerStr "supabase" == toLowerStr v) = false := by
            rw [toLowerStr_supabase, h2]
            decide
          have e2 : (toLowerStr "memory" == toLowerStr v) = true := by
            rw [toLowerStr_memory, h2]
            decide
          have hfind : (["supabase", "memory"].find? fun o =>
              toLowerStr o == toLowerStr v) = some "memory" := by
            simp only [List.find?, e1, e2]
          rw [hfind]
          dsimp only
          rw [if_neg (by decide : ¬ ("memory" : String) = "supabase")]
          refine ⟨?_, ?_, ?_⟩
          · constructor
            · intro h
              exact absurd h (by simp)
            · rintro ⟨v', hv', hlow⟩
              simp only [Option.some.injEq] at hv'
              subst hv'
              rw [h2] at hlow
              exact absurd hlow (by decide)
          · simp only [true_iff]
            exact ⟨v, rfl, h2⟩
          · intro e he
            exact absurd he (by simp)
        · have e1 : (toLowerStr "supabase" == toLowerStr v) = false := by
            rw [toLowerStr_supabase]
            by_cases hq : "supabase" = toLowerStr v
            · exact absurd hq.symm h1
            · simpa using hq
          have e2 : (toLowerStr "memory" == toLowerStr v) = false := by
            rw [toLowerStr_memory]
            by_cases hq : "memory" = toLowerStr v
            · exact absurd hq.symm h2
            · simpa using hq
          have hfind : (["supabase", "memory"].find? fun o =>
              toLowerStr o == toLowerStr v) = none := by
            simp only [List.find?, e1, e2]
          rw [hfind]
          dsimp only
          refine ⟨?_, ?_, ?_⟩
          · constructor
            · intro h
              exact absurd h (by simp)
            · rintro ⟨v', hv', hlow⟩
              simp only [Option.some.injEq] at hv'
              subst hv'
              exact absurd hlow h1
          · constructor
            · intro h
              exact absurd h (by simp)
            · rintro ⟨v', hv', hlow⟩
              simp only [Option.some.injEq] at hv'
              subst hv'
              exact absurd hlow h2
          · intro e he
            refine ⟨"Invalid value for ",
              ". Expected one of " ++ ", ".intercalate ["supabase", "memory"]
                ++ ", received " ++ v ++ ".", ?_⟩
            simp only [Except.error.injEq] at he
            rw [← he]
            apply strEq_of_toList
            simp

/-! ## C6: getBlobEnvironment -/

theorem requireSecretM_ok_getSecret {env : Env} {k v : String}
    (h : requireSecretM env k = .ok v) : getSecretM env k = some v := by
  unfold requireSecretM at h
  cases hg : getSecretM env k with
  | none =>
    rw [hg] at h
    exact absurd h (by simp)
  | some w =>
    rw [hg] at h
    dsimp only at h
    by_cases hw : w = ""
    · rw [if_pos hw] at h
      exact absurd h (by simp)
    · rw [if_neg hw] at h
      simp only [Except.ok.injEq] at h
      rw [h]

theorem ensureSupabase_ok_secrets {env : Env} {st : SupabaseState}
    (h : ensureSupabase env none = .ok st) :
    getSecretM env "SUPABASE_URL" ≠ none ∧
    getSecretM env "SUPABASE_SERVICE_ROLE_KEY" ≠ none ∧
    getSecretM env "SUPABASE_STORAGE_BUCKET" ≠ none := by
  unfold ensureSupabase at h
  cases ha : assertBlobEnv env with
  | error e =>
    rw [ha] at h
    exact absurd h (by simp)
  | ok _ =>
    rw [ha] at h
    cases h1 : requireSecretM env "SUPABASE_URL" with
    | error e =>
      rw [h1] at h
      exact absurd h (by simp)
    | ok url =>
      rw [h1] at h
      cases h2 : requireSecretM env "SUPABASE_SERVICE_ROLE_KEY" with
      | error e =>
        rw [h2] at h
        exact absurd h (by simp)
      | ok key =>
        rw [h2] at h
        cases h3 : requireSecretM env "SUPABASE_STORAGE_BUCKET" with
        | error e =>
          rw [h3] at h
          exact absurd h (by simp)
        | ok bucket =>
          refine ⟨?_, ?_, ?_⟩
          · rw [requireSecretM_ok_getSecret h1]
            simp
          · rw [requireSecretM_ok_getSecret h2]
            simp
          · rw [requireSecretM_ok_getSecret h3]
            simp

/-- C6: `getBlobEnvironment()` is a total function of the configuration
and cache (it never throws; failures land in the `error` field): in memory
mode it reports `provider = "memory"`, `configured = true` and a null
error with no credential dependency; when the mode fails to resolve, or
resolves to the remote backend with no cached credentials and any one
required credential absent, it reports `configured = false` and a
non-null error. -/
theorem getBlobEnvironment_reports (env : Env) (cache : Option SupabaseState) :
    (resolveMode env = .ok .memory →
      getBlobEnvironment env cache =
        { provider := "memory", configured := true, bucket := none
          store := none, error := none }) ∧
    (∀ e, resolveMode env = .error e →
      (getBlobEnvironment env cache).configured = false ∧
      (getBlobEnvironment env cache).error ≠ none) ∧
    (resolveMode env = .ok .supabase → cache = none →
      (getSecretM env "SUPABASE_URL" = none ∨
        getSecretM env "SUPABASE_SERVICE_ROLE_KEY" = none ∨
        getSecretM env "SUPABASE_STORAGE_BUCKET" = none) →
      (getBlobEnvironment env cache).configured = false ∧
      (getBlobEnvironment env cache).error ≠ none) := by
  refine ⟨?_, ?_, ?_⟩
  · intro hmode
    unfold getBlobEnvironment
    rw [hmode]
  · intro e hmode
    unfold getBlobEnvironment
    rw [hmode]
    exact ⟨rfl, by simp⟩
  · intro hmode hcache hmiss
    subst hcache
    unfold getBlobEnvironment
    rw [hmode]
    cases hsup : ensureSupabase env none with
    | error e => exact ⟨rfl, by simp⟩
    | ok st =>
      obtain ⟨hu, hk, hb⟩ := ensureSupabase_ok_secrets hsup
      rcases hmiss with hm | hm | hm
      · exact absurd hm hu
      · exact absurd hm hk
      · exact absurd hm hb

/-! ## C7: idempotent delete -/

theorem mapGet_none_mapDelete : ∀ (m : Store) (k : String),
    mapGet m k = none → mapDelete m k = (m, false)
  | [], k => fun _ => rfl
  | kv :: rest, k => by
    intro h
    unfold mapGet at h
    by_cases hk : kv.1 = k
    · rw [List.find?_cons_of_pos _ (by simp [hk])] at h
      dsimp only at h
      exact absurd h (by simp)
    · rw [List.find?_cons_of_neg _ (by simp [hk])] at h
      unfold mapDelete
      rw [if_neg hk]
      have ih := mapGet_none_mapDelete rest k (by unfold mapGet; exact h)
      rw [ih]

/-- C7: delete is idempotent.  In memory mode, deleting a key that is not
present returns `existed = false` without throwing and leaves the store
unchanged; in remote mode a backend 404 response to the DELETE is treated
as success, so `deleteBlob` returns `true` without throwing. -/
theorem deleteBlob_idempotent (env : Env) (world : RemoteWorld)
    (cache : Option SupabaseState) (store : Store) (path : String)
    (st : SupabaseState) :
    (resolveMode env = .ok .memory →
      mapGet store (normalizePath path) = none →
      deleteBlob env world cache store path = .ok (false, store)) ∧
    (resolveMode env = .ok .supabase →
      ensureSupabase env cache = .ok st →
      world.deleteResp.status = 404 →
      deleteBlob env world cache store path = .ok (true, store)) := by
  constructor
  · intro hmode habsent
    unfold deleteBlob
    rw [hmode]
    simp only [bind, Except.bind]
    rw [mapGet_none_mapDelete store (normalizePath path) habsent]
  · intro hmode hsup h404
    unfold deleteBlob
    rw [hmode]
    simp only [bind, Except.bind]
    rw [hsup]
    dsimp only
    simp only [supabaseDelete, h404]
    simp

/-! ## C8: non-2xx upload rejects with status and truncated body -/

/-- C8: in remote mode, when the upload response status is not 2xx,
`putBlobFromBuffer` rejects (the facade rethrows the backend error with
the same message) with an error carrying the response status and the
response body truncated to at most 200 characters, rather than returning
success. -/
theorem putBlobFromBuffer_non2xx_rejects (env : Env) (world : RemoteWorld)
    (cache : Option SupabaseState) (store : Store)
    (now randTok timeTok path : String) (buf : List Nat)
    (contentType : String) (options : PutBlobOptions) (st : SupabaseState)
    (hmode : resolveMode env = .ok .supabase)
    (hsup : ensureSupabase env cache = .ok st)
    (hbad : resOk world.uploadResp.status = false) :
    putBlobFromBuffer env world cache store now randTok timeTok path buf
        contentType options =
      .error ("Supabase upload failed with status " ++
        toString world.uploadResp.status ++ ": " ++
        strTake world.uploadResp.body 200) ∧
    (strTake world.uploadResp.body 200).toList.length ≤ 200 := by
  constructor
  · unfold putBlobFromBuffer
    rw [hmode]
    simp only [bind, Except.bind]
    rw [hsup]
    dsimp only
    simp only [supabaseUpload, hbad]
    simp
  · simp only [strTake, toList_mkStr]
    exact List.length_take_le 200 world.uploadResp.body.toList

/-! ## Sample configurations and worlds for the witnesses -/

/-- A configuration selecting the memory backend. -/
def envMemory : Env := fun k =>
  if k = "STORAGE_MODE" then some "memory" else none

/-- A configuration selecting the remote backend with all credentials. -/
def envSupabase : Env := fun k =>
  if k = "STORAGE_MODE" then some "supabase"
  else if k = "SUPABASE_URL" then some "https://example.supabase.co"
  else if k = "SUPABASE_SERVICE_ROLE_KEY" then some "service-role-key"
  else if k = "SUPABASE_STORAGE_BUCKET" then some "artifacts"
  else none

/-- A remote configuration with the bucket credential absent. -/
def envSupabaseNoBucket : Env := fun k =>
  if k = "STORAGE_MODE" then some "supabase"
  else if k = "SUPABASE_URL" then some "https://example.supabase.co"
  else if k = "SUPABASE_SERVICE_ROLE_KEY" then some "service-role-key"
  else none

/-- A world whose every response is 200 with empty bodies. -/
def worldOk : RemoteWorld :=
  { uploadResp := { status := 200, body := "" }
    downloadResp := { status := 200, body := "", bytes := [], contentType := none
                      cacheControl := none, lastModified := none, etag := none
                      contentLength := none }
    deleteResp := { status := 200, body := "" }
    listResp := { status := 200, body := "" }
    listObjects := [] }

/-- A world whose DELETE answers 404. -/
def world404Delete : RemoteWorld :=
  { worldOk with deleteResp := { status := 404, body := "Not Found" } }

/-- A world whose upload answers 500. -/
def world500Upload : RemoteWorld :=
  { worldOk with uploadResp := { status := 500, body := "boom" } }

/-- C7 witness: deleting the absent key `x` from an empty memory store
returns `existed = false`, and a remote delete answered 404 returns true. -/
theorem deleteBlob_idempotent_witness :
    deleteBlob envMemory worldOk none [] "x" = .ok (false, []) ∧
    deleteBlob envSupabase world404Delete
        (some { url := "u", bucket := "b", key := "k" }) [] "x" =
      .ok (true, []) := by
  constructor
  · exact (deleteBlob_idempotent envMemory worldOk none [] "x"
      { url := "u", bucket := "b", key := "k" }).1 rfl rfl
  · exact (deleteBlob_idempotent envSupabase world404Delete
      (some { url := "u", bucket := "b", key := "k" }) [] "x"
      { url := "u", bucket := "b", key := "k" }).2 rfl rfl rfl

/-- C8 witness: a 500 upload response makes `putBlobFromBuffer` reject
with a message carrying status 500 and the (short) body. -/
theorem putBlobFromBuffer_non2xx_witness :
    putBlobFromBuffer envSupabase world500Upload
        (some { url := "u", bucket := "b", key := "k" }) [] "now" "r" "t"
        "a.txt" [1, 2] "text/plain" {} =
      .error ("Supabase upload failed with status " ++ toString (500 : Nat) ++
        ": " ++ strTake "boom" 200) ∧
    (strTake "boom" 200).toList.length ≤ 200 :=
  putBlobFromBuffer_non2xx_rejects envSupabase world500Upload
    (some { url := "u", bucket := "b", key := "k" }) [] "now" "r" "t"
    "a.txt" [1, 2] "text/plain" {} { url := "u", bucket := "b", key := "k" }
    rfl rfl (by decide)

/-! ## C10: the public limit clamp -/

theorem filterByCursor_length_le (lc : String → String → Bool)
    (blobs : List ListedBlob) (limit : Nat)
    (cursor : Option String) :
    (filterByCursor lc blobs limit cursor).slice.length ≤ limit := by
  unfold filterByCursor
  exact List.length_take_le limit _

theorem listBlobs_length_le (env : Env) (lc : String → String → Bool)
    (world : RemoteWorld)
    (cache : Option SupabaseState) (store : Store)
    (options : ListCommandOptions) (res : ListBlobResult)
    (h : listBlobs env lc world cache store options = .ok res) :
    res.blobs.length ≤ jsLimitToNat (jsEffectiveLimit options.limit) := by
  unfold listBlobs at h
  simp only [bind, Except.bind] at h
  cases hm : resolveMode env with
  | error e =>
    rw [hm] at h
    exact absurd h (by simp)
  | ok mode =>
    rw [hm] at h
    cases mode with
    | memory =>
      dsimp only at h
      simp only [Except.ok.injEq] at h
      rw [← h]
      unfold listMemoryBlobs
      exact filterByCursor_length_le _ _ _ _
    | supabase =>
      dsimp only at h
      unfold listSupabaseBlobs at h
      simp only [bind, Except.bind] at h
      cases hs : ensureSupabase env cache with
      | error e =>
        rw [hs] at h
        exact absurd h (by simp)
      | ok st =>
        rw [hs] at h
        dsimp only at h
        cases hl : supabaseList world st
            (normalizePath (options.pfx.getD ""))
            (max (jsLimitToNat (jsEffectiveLimit options.limit)) 1000) with
        | error e =>
          rw [hl] at h
          exact absurd h (by simp)
        | ok objects =>
          rw [hl] at h
          dsimp only at h
          simp only [Except.ok.injEq] at h
          rw [← h]
          exact filterByCursor_length_le _ _ _ _

theorem jsLimitToNat_cast_le {v : ℚ} (h1 : 1 ≤ v) :
    ((jsLimitToNat (.finite v) : ℚ)) ≤ v := by
  unfold jsLimitToNat
  have hfloor : (1 : ℤ) ≤ ⌊v⌋ := Int.le_floor.mpr (by exact_mod_cast h1)
  have h0 : (0 : ℤ) ≤ ⌊v⌋ := by omega
  have hcast : ((⌊v⌋.toNat : ℤ) : ℚ) = ((⌊v⌋ : ℤ) : ℚ) := by
    rw [Int.toNat_of_nonneg h0]
  calc ((⌊v⌋.toNat : ℚ)) = ((⌊v⌋ : ℚ)) := by exact_mod_cast hcast
    _ ≤ v := Int.floor_le v

/-- C10: `listBlobs` clamps its page limit at the public interface: a
missing, zero or non-finite `options.limit` yields the effective limit
100; a finite non-zero limit below 1 yields 1; any other (finite, at
least 1) limit is taken as given; and the returned page never holds more
entries than the effective limit, in either mode. -/
theorem listBlobs_limit_clamp (lim : Option JSNumber) :
    ∃ v : ℚ, jsEffectiveLimit lim = .finite v ∧ 1 ≤ v ∧
    (lim = none → v = 100) ∧
    (∀ n, lim = some n → jsIsFinite n = false → v = 100) ∧
    (lim = some (.finite 0) → v = 100) ∧
    (∀ w : ℚ, lim = some (.finite w) → w ≠ 0 → w < 1 → v = 1) ∧
    (∀ w : ℚ, lim = some (.finite w) → 1 ≤ w → v = w) ∧
    (∀ env lc world cache store pfx cursor res,
      listBlobs env lc world cache store
          { pfx := pfx, limit := lim, cursor := cursor } = .ok res →
      (res.blobs.length : ℚ) ≤ v) := by
  have pageBound : ∀ v : ℚ, jsEffectiveLimit lim = .finite v → 1 ≤ v →
      ∀ env lc world cache store pfx cursor res,
      listBlobs env lc world cache store
          { pfx := pfx, limit := lim, cursor := cursor } = .ok res →
      (res.blobs.length : ℚ) ≤ v := by
    intro v hv h1 env lc world cache store pfx cursor res hres
    have hnat := listBlobs_length_le env lc world cache store
      { pfx := pfx, limit := lim, cursor := cursor } res hres
    simp only [hv] at hnat
    calc (res.blobs.length : ℚ) ≤ ((jsLimitToNat (.finite v) : ℚ)) := by
          exact_mod_cast hnat
      _ ≤ v := jsLimitToNat_cast_le h1
  cases lim with
  | none =>
    refine ⟨100, rfl, by norm_num, fun _ => rfl, ?_, ?_, ?_, ?_, ?_⟩
    · intro n hn
      exact absurd hn (by simp)
    · intro hn
      exact absurd hn (by simp)
    · intro w hw
      exact absurd hw (by simp)
    · intro w hw
      exact absurd hw (by simp)
    · exact pageBound 100 rfl (by norm_num)
  | some n =>
    cases n with
    | nan =>
      refine ⟨100, rfl, by norm_num, by simp, fun _ _ _ => rfl, by simp,
        by simp, by simp, pageBound 100 rfl (by norm_num)⟩
    | posInf =>
      refine ⟨100, rfl, by norm_num, by simp, fun _ _ _ => rfl, by simp,
        by simp, by simp, pageBound 100 rfl (by norm_num)⟩
    | negInf =>
      refine ⟨100, rfl, by norm_num, by simp, fun _ _ _ => rfl, by simp,
        by simp, by simp, pageBound 100 rfl (by norm_num)⟩
    | finite w =>
      by_cases hw0 : w = 0
      · subst hw0
        have heff : jsEffectiveLimit (some (.finite 0)) = .finite 100 := by
          simp [jsEffectiveLimit, jsTruthy]
        refine ⟨100, heff, by norm_num, by simp, ?_, fun _ => rfl, ?_, ?_,
          pageBound 100 heff (by norm_num)⟩
        · intro n hn hfin
          simp only [Option.some.injEq] at hn
          rw [← hn] at hfin
        · intro w' hw'
          simp only [Option.some.injEq, JSNumber.finite.injEq] at hw'
          intro hne _
          exact absurd hw'.symm hne
        · intro w' hw' h1
          simp only [Option.some.injEq, JSNumber.finite.injEq] at hw'
          rw [← hw'] at h1
          exact absurd h1 (by norm_num)
      · have heff : jsEffectiveLimit (some (.finite w)) =
            .finite (max 1 w) := by
          simp [jsEffectiveLimit, jsTruthy, jsIsFinite, hw0, jsMax1]
        refine ⟨max 1 w, heff, le_max_left 1 w, by simp, ?_, ?_, ?_, ?_,
          pageBound (max 1 w) heff (le_max_left 1 w)⟩
        · intro n hn hfin
          simp only [Option.some.injEq] at hn
          rw [← hn] at hfin
          exact absurd hfin (by simp [jsIsFinite])
        · intro hn
          simp only [Option.some.injEq, JSNumber.finite.injEq] at hn
          exact absurd hn hw0
        · intro w' hw' _ hlt
          simp only [Option.some.injEq, JSNumber.finite.injEq] at hw'
          subst hw'
          exact max_eq_left (le_of_lt hlt)
        · intro w' hw' h1
          simp only [Option.some.injEq, JSNumber.finite.injEq] at hw'
          subst hw'
          exact max_eq_right h1

/-! ## C2: the pager against the spec's paging sentence

The source mixes two orderings: the sort comparator is `localeCompare`
(the abstract collation `lc`), while the cursor test `entry.pathname >
cursor` is code-unit order (`jsStrLt`).  The lemmas suffixed `_cu` treat
the code-unit instantiation `lc = jsStrLe`, under which the two orders
coincide; the claim theorems quantify over `lc`. -/

theorem drop_findIdx_eq_dropWhile {α : Type} (p : α → Bool) :
    ∀ l : List α, l.drop (l.findIdx p) = l.dropWhile fun a => !p a
  | [] => rfl
  | a :: l => by
    rw [List.findIdx_cons]
    cases hp : p a with
    | true => simp [hp, List.dropWhile_cons]
    | false => simp [hp, List.dropWhile_cons, drop_findIdx_eq_dropWhile p l]

theorem filterByCursor_eq_spec (blobs : List ListedBlob) (limit : Nat)
    (cursor : Option String) (hcur : cursor ≠ some "") :
    filterByCursor jsStrLe blobs limit cursor = cursorPageSpec blobs limit cursor := by
  cases cursor with
  | none =>
    simp only [filterByCursor, cursorPageSpec, List.drop_zero, Nat.zero_add]
  | some c =>
    have hc' : ¬ c = "" := fun hc => hcur (by rw [hc])
    simp only [filterByCursor, cursorPageSpec, if_neg hc']
    have hdw := drop_findIdx_eq_dropWhile (fun e => jsStrLt c e.pathname)
      (blobs.mergeSort (blobCmp jsStrLe))
    simp only [← hdw]
    have hle : (blobs.mergeSort (blobCmp jsStrLe)).findIdx
        (fun e => jsStrLt c e.pathname) ≤ (blobs.mergeSort (blobCmp jsStrLe)).length :=
      List.findIdx_le_length _
    have hmoreEq :
        decide ((blobs.mergeSort (blobCmp jsStrLe)).findIdx
            (fun e => jsStrLt c e.pathname) +
          (((blobs.mergeSort (blobCmp jsStrLe)).drop
            ((blobs.mergeSort (blobCmp jsStrLe)).findIdx
              (fun e => jsStrLt c e.pathname))).take limit).length <
          (blobs.mergeSort (blobCmp jsStrLe)).length) =
        decide ((((blobs.mergeSort (blobCmp jsStrLe)).drop
            ((blobs.mergeSort (blobCmp jsStrLe)).findIdx
              (fun e => jsStrLt c e.pathname))).take limit).length <
          ((blobs.mergeSort (blobCmp jsStrLe)).drop
            ((blobs.mergeSort (blobCmp jsStrLe)).findIdx
              (fun e => jsStrLt c e.pathname))).length) := by
      apply decide_eq_decide.mpr
      rw [List.length_take, List.length_drop]
      omega
    simp only [hmoreEq]

theorem mem_dropWhile_gt (c : String) :
    ∀ l : List ListedBlob,
      List.Pairwise (fun a b => blobCmp jsStrLe a b = true) l →
      ∀ e ∈ l.dropWhile fun x => !(jsStrLt c x.pathname),
        jsStrLt c e.pathname = true
  | [], _ => by simp
  | a :: l, hpair => by
    cases hp : jsStrLt c a.pathname with
    | false =>
      rw [List.dropWhile_cons, if_pos (by simp [hp])]
      exact mem_dropWhile_gt c l hpair.of_cons
    | true =>
      rw [List.dropWhile_cons, if_neg (by simp [hp])]
      intro e he
      rcases List.mem_cons.mp he with rfl | he'
      · exact hp
      · exact jsStrLt_of_lt_of_le hp (List.rel_of_pairwise_cons hpair he')

theorem mergeSort_blobCmp_pairwise (lc : String → String → Bool)
    (htrans : ∀ s t u, lc s t = true → lc t u = true → lc s u = true)
    (htot : ∀ s t, (lc s t || lc t s) = true)
    (blobs : List ListedBlob) :
    List.Pairwise (fun a b => blobCmp lc a b = true)
      (blobs.mergeSort (blobCmp lc)) := by
  refine List.sorted_mergeSort ?_ ?_ blobs
  · intro a b c hab hbc
    exact htrans _ _ _ hab hbc
  · intro a b
    exact htot a.pathname b.pathname

theorem mergeSort_cu_pairwise (blobs : List ListedBlob) :
    List.Pairwise (fun a b => blobCmp jsStrLe a b = true)
      (blobs.mergeSort (blobCmp jsStrLe)) :=
  mergeSort_blobCmp_pairwise jsStrLe
    (fun s t u h1 h2 => jsStrLe_trans h1 h2) jsStrLe_total blobs

/-- The claim's paging sentence under the code-unit instantiation of the
collation: the pager equals the spec-side single-order pager, the page is
sorted, bounded by `limit`, strictly past the cursor, and `nextCursor` is
the last page key exactly when `hasMore`. -/
theorem filterByCursor_paging_cu (blobs : List ListedBlob) (limit : Nat)
    (cursor : Option String) (hlim : 1 ≤ limit) (hcur : cursor ≠ some "") :
    filterByCursor jsStrLe blobs limit cursor = cursorPageSpec blobs limit cursor ∧
    List.Pairwise (fun a b => jsStrLe a.pathname b.pathname = true)
      (filterByCursor jsStrLe blobs limit cursor).slice ∧
    (filterByCursor jsStrLe blobs limit cursor).slice.length ≤ limit ∧
    (∀ c, cursor = some c →
      ∀ e ∈ (filterByCursor jsStrLe blobs limit cursor).slice,
        jsStrLt c e.pathname = true) ∧
    ((filterByCursor jsStrLe blobs limit cursor).hasMore = true →
      ∃ last, (filterByCursor jsStrLe blobs limit cursor).slice.getLast? = some last ∧
        (filterByCursor jsStrLe blobs limit cursor).nextCursor =
          some last.pathname) ∧
    ((filterByCursor jsStrLe blobs limit cursor).hasMore = false →
      (filterByCursor jsStrLe blobs limit cursor).nextCursor = none) := by
  have hspec := filterByCursor_eq_spec blobs limit cursor hcur
  have hsorted := mergeSort_cu_pairwise blobs
  refine ⟨hspec, ?_, filterByCursor_length_le jsStrLe blobs limit cursor, ?_, ?_, ?_⟩
  · have hsub : (filterByCursor jsStrLe blobs limit cursor).slice.Sublist
        (blobs.mergeSort (blobCmp jsStrLe)) := by
      unfold filterByCursor
      dsimp only
      exact (List.take_sublist _ _).trans (List.drop_sublist _ _)
    exact (List.Pairwise.sublist hsub hsorted).imp fun h => h
  · intro c hc e he
    subst hc
    rw [hspec] at he
    simp only [cursorPageSpec] at he
    exact mem_dropWhile_gt c _ hsorted e (List.mem_of_mem_take he)
  · intro hmore
    rw [hspec] at hmore ⊢
    simp only [cursorPageSpec] at hmore ⊢
    have hlt := of_decide_eq_true hmore
    have hne : ¬ ((match cursor with
        | none => blobs.mergeSort (blobCmp jsStrLe)
        | some c => (blobs.mergeSort (blobCmp jsStrLe)).dropWhile
            fun e => !(jsStrLt c e.pathname)).take limit = []) := by
      intro hempty
      rcases List.take_eq_nil_iff.mp hempty with h0 | h0
      · omega
      · rw [hempty, h0] at hlt
        simp at hlt
    cases hq : (match cursor with
        | none => blobs.mergeSort (blobCmp jsStrLe)
        | some c => (blobs.mergeSort (blobCmp jsStrLe)).dropWhile
            fun e => !(jsStrLt c e.pathname)).take limit |>.getLast? with
    | none => exact absurd (List.getLast?_eq_none_iff.mp hq) hne
    | some last =>
      refine ⟨last, rfl, ?_⟩
      simp [hmore]
      rw [List.length_take] at hlt
      omega
  · intro hless
    rw [hspec] at hless ⊢
    simp only [cursorPageSpec] at hless ⊢
    simp only [hless]
    simp


/-- The `hasMore`/`nextCursor` facts of one page record, for any start
index: a further page implies the current one is non-empty and its last
key is the cursor handed out; no further page hands out no cursor. -/
theorem cursorPage_next_core (S : List ListedBlob) (limit i : Nat)
    (hlim : 1 ≤ limit) :
    (decide (i + ((S.drop i).take limit).length < S.length) = true →
      ∃ last, ((S.drop i).take limit).getLast? = some last ∧
        (if decide (i + ((S.drop i).take limit).length < S.length) = true
          then (((S.drop i).take limit).getLast?).map fun e => e.pathname
          else none) = some last.pathname) ∧
    (decide (i + ((S.drop i).take limit).length < S.length) = false →
      (if decide (i + ((S.drop i).take limit).length < S.length) = true
        then (((S.drop i).take limit).getLast?).map fun e => e.pathname
        else none) = none) := by
  constructor
  · intro hmore
    have hlt := of_decide_eq_true hmore
    have hne : (S.drop i).take limit ≠ [] := by
      intro hempty
      rcases List.take_eq_nil_iff.mp hempty with h0 | h0
      · omega
      · have hlen0 := congrArg List.length h0
        rw [List.length_drop] at hlen0
        simp only [List.length_nil] at hlen0
        rw [hempty] at hlt
        simp only [List.length_nil] at hlt
        omega
    cases hq : ((S.drop i).take limit).getLast? with
    | none => exact absurd (List.getLast?_eq_none_iff.mp hq) hne
    | some last =>
      refine ⟨last, rfl, ?_⟩
      rw [if_pos hmore]
      rfl
  · intro hless
    rw [if_neg (by rw [hless]; exact Bool.false_ne_true)]

theorem filterByCursor_next_facts (lc : String → String → Bool)
    (blobs : List ListedBlob) (limit : Nat) (cursor : Option String)
    (hlim : 1 ≤ limit) :
    ((filterByCursor lc blobs limit cursor).hasMore = true →
      ∃ last, (filterByCursor lc blobs limit cursor).slice.getLast?
          = some last ∧
        (filterByCursor lc blobs limit cursor).nextCursor
          = some last.pathname) ∧
    ((filterByCursor lc blobs limit cursor).hasMore = false →
      (filterByCursor lc blobs limit cursor).nextCursor = none) := by
  cases cursor with
  | none =>
    unfold filterByCursor
    dsimp only
    exact cursorPage_next_core _ limit 0 hlim
  | some c =>
    unfold filterByCursor
    dsimp only
    by_cases hc : c = ""
    · rw [if_pos hc]
      exact cursorPage_next_core _ limit 0 hlim
    · rw [if_neg hc]
      exact cursorPage_next_core _ limit _ hlim

/-- C2 (amended: (i) a given empty-string cursor is falsy in the source
and is treated as no cursor; (ii) the sort order is the locale collation
(`localeCompare`) while the cursor test is code-unit `>`, two different
orderings, so the page is sorted and contiguous in the collation order
but its entries need not be greater than the cursor — the claim's
single-order description holds exactly when the collation agrees with
code-unit order): for every total, transitive collation, `limit ≥ 1` and
cursor not given as the empty string, the page is collation-sorted, holds
at most `limit` entries, all drawn from the candidates; `nextCursor` is
the key of the last page entry when `hasMore` is true and absent
otherwise; and when the collation agrees with code-unit order the pager
equals the spec-side single-order pager and every returned key is
strictly greater than the given cursor. -/
theorem filterByCursor_locale_paging (lc : String → String → Bool)
    (blobs : List ListedBlob) (limit : Nat) (cursor : Option String)
    (htrans : ∀ s t u, lc s t = true → lc t u = true → lc s u = true)
    (htot : ∀ s t, (lc s t || lc t s) = true)
    (hlim : 1 ≤ limit) (hcur : cursor ≠ some "") :
    List.Pairwise (fun a b => lc a.pathname b.pathname = true)
      (filterByCursor lc blobs limit cursor).slice ∧
    (filterByCursor lc blobs limit cursor).slice.length ≤ limit ∧
    (∀ e ∈ (filterByCursor lc blobs limit cursor).slice, e ∈ blobs) ∧
    ((filterByCursor lc blobs limit cursor).hasMore = true →
      ∃ last, (filterByCursor lc blobs limit cursor).slice.getLast?
          = some last ∧
        (filterByCursor lc blobs limit cursor).nextCursor
          = some last.pathname) ∧
    ((filterByCursor lc blobs limit cursor).hasMore = false →
      (filterByCursor lc blobs limit cursor).nextCursor = none) ∧
    ((∀ s t, lc s t = jsStrLe s t) →
      filterByCursor lc blobs limit cursor
          = cursorPageSpec blobs limit cursor ∧
      ∀ c, cursor = some c →
        ∀ e ∈ (filterByCursor lc blobs limit cursor).slice,
          jsStrLt c e.pathname = true) := by
  have hsub : (filterByCursor lc blobs limit cursor).slice.Sublist
      (blobs.mergeSort (blobCmp lc)) := by
    unfold filterByCursor
    dsimp only
    exact (List.take_sublist _ _).trans (List.drop_sublist _ _)
  refine ⟨?_, filterByCursor_length_le lc blobs limit cursor, ?_,
    (filterByCursor_next_facts lc blobs limit cursor hlim).1,
    (filterByCursor_next_facts lc blobs limit cursor hlim).2, ?_⟩
  · exact (List.Pairwise.sublist hsub
      (mergeSort_blobCmp_pairwise lc htrans htot blobs)).imp fun h => h
  · intro e he
    exact List.mem_mergeSort.mp (hsub.subset he)
  · intro hagree
    have hfn : lc = jsStrLe := funext fun s => funext fun t => hagree s t
    subst hfn
    exact ⟨(filterByCursor_paging_cu blobs limit cursor hlim hcur).1,
      (filterByCursor_paging_cu blobs limit cursor hlim hcur).2.2.2.1⟩

/-! ## C3: cursor-walk exhaustiveness -/

theorem dropWhile_eq_drop_of {α : Type} (p : α → Bool) :
    ∀ (i : Nat) (l : List α),
      (∀ x ∈ l.take i, p x = true) →
      (∀ x, (l.drop i).head? = some x → p x = false) →
      l.dropWhile p = l.drop i
  | 0, [] => fun _ _ => rfl
  | 0, a :: l => by
    intro _ h2
    rw [List.dropWhile_cons, if_neg (by simp [h2 a rfl])]
    rfl
  | i + 1, [] => fun _ _ => by simp
  | i + 1, a :: l => by
    intro h1 h2
    have hpa : p a = true := h1 a (by simp)
    rw [List.dropWhile_cons, if_pos hpa]
    exact dropWhile_eq_drop_of p i l
      (fun x hx => h1 x (by simp [List.take_cons]; exact Or.inr hx))
      h2

theorem sorted_strict (blobs : List ListedBlob)
    (hnd : (blobs.map fun b => b.pathname).Nodup) :
    List.Pairwise (fun a b => jsStrLt a.pathname b.pathname = true)
      (blobs.mergeSort (blobCmp jsStrLe)) := by
  have hpair := mergeSort_cu_pairwise blobs
  have hperm := List.mergeSort_perm blobs (blobCmp jsStrLe)
  have hnd' : ((blobs.mergeSort (blobCmp jsStrLe)).map fun b => b.pathname).Nodup :=
    (List.Perm.nodup_iff (List.Perm.map _ hperm)).mpr hnd
  have hne := (List.pairwise_map).mp hnd'
  refine (List.Pairwise.and hpair hne).imp ?_
  intro a b hab
  rcases jsStrLe_iff.mp hab.1 with hlt | heq
  · exact hlt
  · exact absurd heq hab.2

theorem dropWhile_gt_at (S : List ListedBlob)
    (hstrict : List.Pairwise
      (fun a b => jsStrLt a.pathname b.pathname = true) S)
    (i : Nat) (hi : i < S.length) :
    (S.dropWhile fun e => !(jsStrLt (S[i].pathname) e.pathname)) =
      S.drop (i + 1) := by
  have hget := List.pairwise_iff_getElem.mp hstrict
  apply dropWhile_eq_drop_of
  · intro x hx
    rcases List.mem_take_iff_getElem.mp hx with ⟨j, hj, hxj⟩
    have hj' : j < S.length := lt_of_lt_of_le hj (by
      rw [min_le_iff]
      right
      exact le_refl _)
    rcases Nat.lt_or_ge j i with hji | hji
    · have hlt := hget j i hj' hi hji
      rw [← hxj]
      simp [jsStrLt_asymm hlt]
    · have hji2 : j = i := by
        have : j < i + 1 := lt_of_lt_of_le hj (by
          rw [min_le_iff]
          left
          exact le_refl _)
        omega
      subst hji2
      rw [← hxj]
      simp [jsStrLt_irrefl]
  · intro x hx
    rw [List.head?_drop] at hx
    by_cases hlen : i + 1 < S.length
    · rw [List.getElem?_eq_getElem hlen] at hx
      simp only [Option.some.injEq] at hx
      have hlt := hget i (i + 1) hi hlen (by omega)
      rw [← hx]
      simp [hlt]
    · rw [List.getElem?_eq_none (by omega)] at hx
      exact absurd hx (by simp)

theorem paginateAux_run (blobs : List ListedBlob) (limit : Nat)
    (hlim : 1 ≤ limit)
    (hstrict : List.Pairwise
      (fun a b => jsStrLt a.pathname b.pathname = true)
      (blobs.mergeSort (blobCmp jsStrLe)))
    (hne : ∀ e ∈ blobs.mergeSort (blobCmp jsStrLe), e.pathname ≠ "") :
    ∀ (fuel k : Nat) (cursor : Option String),
      ((cursor = none ∧ k = 0) ∨
        (∃ c, cursor = some c ∧ c ≠ "" ∧
          ((blobs.mergeSort (blobCmp jsStrLe)).dropWhile
            fun e => !(jsStrLt c e.pathname)) =
          (blobs.mergeSort (blobCmp jsStrLe)).drop k)) →
      (blobs.mergeSort (blobCmp jsStrLe)).length - k < fuel →
      ∃ pages, paginateAux jsStrLe blobs limit cursor fuel = some pages ∧
        pages.flatten = (blobs.mergeSort (blobCmp jsStrLe)).drop k := by
  intro fuel
  induction fuel with
  | zero =>
    intro k cursor _ hf
    omega
  | succ n ih =>
    intro k cursor hc hf
    have hcurne : cursor ≠ some "" := by
      rcases hc with ⟨hc0, _⟩ | ⟨c, hc1, hc2, _⟩
      · rw [hc0]
        simp
      · rw [hc1]
        simp [hc2]
    have hspec := filterByCursor_eq_spec blobs limit cursor hcurne
    have hpage : filterByCursor jsStrLe blobs limit cursor =
        { slice := ((blobs.mergeSort (blobCmp jsStrLe)).drop k).take limit
          hasMore := decide
            ((((blobs.mergeSort (blobCmp jsStrLe)).drop k).take limit).length <
              ((blobs.mergeSort (blobCmp jsStrLe)).drop k).length)
          nextCursor := if decide
              ((((blobs.mergeSort (blobCmp jsStrLe)).drop k).take limit).length <
                ((blobs.mergeSort (blobCmp jsStrLe)).drop k).length) then
            ((((blobs.mergeSort (blobCmp jsStrLe)).drop k).take limit).getLast?).map
              fun e => e.pathname
          else none } := by
      rcases hc with ⟨hc0, hk0⟩ | ⟨c, hc1, _, hc3⟩
      · subst hc0
        subst hk0
        rw [hspec]
        simp only [cursorPageSpec, List.drop_zero]
      · subst hc1
        rw [hspec]
        simp only [cursorPageSpec]
        simp only [hc3]
    by_cases hmore :
        ((((blobs.mergeSort (blobCmp jsStrLe)).drop k).take limit).length <
          ((blobs.mergeSort (blobCmp jsStrLe)).drop k).length)
    · -- entries remain: the page is full and the walk continues
      have hlt : limit < ((blobs.mergeSort (blobCmp jsStrLe)).drop k).length := by
        rw [List.length_take] at hmore
        omega
      have hklim : k + limit ≤ (blobs.mergeSort (blobCmp jsStrLe)).length := by
        rw [List.length_drop] at hlt
        omega
      have hidx : k + limit - 1 < (blobs.mergeSort (blobCmp jsStrLe)).length := by
        omega
      have hlast : (((blobs.mergeSort (blobCmp jsStrLe)).drop k).take limit).getLast? =
          some ((blobs.mergeSort (blobCmp jsStrLe))[k + limit - 1]) := by
        rw [List.getLast?_eq_getElem?]
        have hlen : (((blobs.mergeSort (blobCmp jsStrLe)).drop k).take limit).length =
            limit := by
          rw [List.length_take]
          omega
        rw [hlen, List.getElem?_take, if_pos (by omega), List.getElem?_drop]
        rw [List.getElem?_eq_getElem (by omega)]
        congr 1
        congr 1
        omega
      set cv := ((blobs.mergeSort (blobCmp jsStrLe))[k + limit - 1]).pathname
        with hcv
      have hcvne : cv ≠ "" :=
        hne _ (List.getElem_mem hidx)
      have hnext : ((blobs.mergeSort (blobCmp jsStrLe)).dropWhile
          fun e => !(jsStrLt cv e.pathname)) =
          (blobs.mergeSort (blobCmp jsStrLe)).drop (k + limit) := by
        have := dropWhile_gt_at (blobs.mergeSort (blobCmp jsStrLe)) hstrict
          (k + limit - 1) hidx
        rw [hcv]
        rw [this]
        congr 1
        omega
      obtain ⟨pages, hrun, hflat⟩ := ih (k + limit) (some cv)
        (Or.inr ⟨cv, rfl, hcvne, hnext⟩)
        (by
          rw [List.length_drop] at hlt
          omega)
      refine ⟨((blobs.mergeSort (blobCmp jsStrLe)).drop k).take limit :: pages, ?_, ?_⟩
      · simp only [paginateAux, hpage]
        simp only [if_pos (decide_eq_true hmore)]
        rw [hlast]
        dsimp only [Option.map]
        rw [← hcv, hrun]
      · simp only [List.flatten_cons, hflat]
        rw [← List.drop_drop, List.take_append_drop]
    · -- no further entries: the final page is the whole remainder
      have hlen : ((blobs.mergeSort (blobCmp jsStrLe)).drop k).length ≤ limit := by
        rw [List.length_take] at hmore
        omega
      refine ⟨[(blobs.mergeSort (blobCmp jsStrLe)).drop k], ?_, ?_⟩
      · simp only [paginateAux, hpage]
        rw [if_neg (by simpa using hmore)]
        rw [List.take_of_length_le hlen]
      · simp [List.take_of_length_le hlen]

/-- Cursor-walk exhaustiveness under the code-unit instantiation of the
collation (the two orders of the source coincide): the walk terminates
within one call per candidate and the pages concatenate to the sorted
candidate list. -/
theorem paginateAll_exhaustive_cu (blobs : List ListedBlob) (limit : Nat)
    (hlim : 1 ≤ limit)
    (hnd : (blobs.map fun b => b.pathname).Nodup)
    (hne : ∀ b ∈ blobs, b.pathname ≠ "") :
    ∃ pages, paginateAll jsStrLe blobs limit = some pages ∧
      pages.flatten = blobs.mergeSort (blobCmp jsStrLe) ∧
      pages.flatten.Perm blobs ∧
      List.Pairwise (fun a b => jsStrLe a.pathname b.pathname = true)
        pages.flatten ∧
      (pages.flatten.map fun b => b.pathname).Nodup := by
  have hstrict := sorted_strict blobs hnd
  have hneS : ∀ e ∈ blobs.mergeSort (blobCmp jsStrLe), e.pathname ≠ "" :=
    fun e heS => hne e (List.mem_mergeSort.mp heS)
  obtain ⟨pages, hrun, hflat⟩ := paginateAux_run blobs limit hlim hstrict
    hneS (blobs.length + 1) 0 none (Or.inl ⟨rfl, rfl⟩)
    (by
      rw [List.length_mergeSort]
      omega)
  rw [List.drop_zero] at hflat
  refine ⟨pages, hrun, hflat, ?_, ?_, ?_⟩
  · rw [hflat]
    exact List.mergeSort_perm blobs (blobCmp jsStrLe)
  · rw [hflat]
    exact (mergeSort_cu_pairwise blobs).imp fun h => h
  · rw [hflat]
    exact (List.Perm.nodup_iff
      (List.Perm.map _ (List.mergeSort_perm blobs (blobCmp jsStrLe)))).mpr hnd


/-- C3 (amended: the walk is exhaustive provided (i) the candidate keys
are pairwise distinct and non-empty — a duplicate key repeats within a
page, and the empty key makes the handed-out empty-string cursor falsy so
the first page repeats forever — and (ii) the locale collation agrees
with code-unit order: the source sorts by `localeCompare` but advances
the cursor with code-unit `>`, and when the two orders disagree entries
are silently dropped, see the counterexample): then feeding each page's
returned cursor into the next call terminates within one call per
candidate and the concatenation of the pages is exactly the sorted
candidate list — a permutation of the candidates, sorted, with no key
repeated. -/
theorem paginateAll_agreement_exhaustive (lc : String → String → Bool)
    (hagree : ∀ s t, lc s t = jsStrLe s t)
    (blobs : List ListedBlob) (limit : Nat) (hlim : 1 ≤ limit)
    (hnd : (blobs.map fun b => b.pathname).Nodup)
    (hne : ∀ b ∈ blobs, b.pathname ≠ "") :
    ∃ pages, paginateAll lc blobs limit = some pages ∧
      pages.flatten = blobs.mergeSort (blobCmp lc) ∧
      pages.flatten.Perm blobs ∧
      List.Pairwise (fun a b => jsStrLe a.pathname b.pathname = true)
        pages.flatten ∧
      (pages.flatten.map fun b => b.pathname).Nodup := by
  have hfn : lc = jsStrLe := funext fun s => funext fun t => hagree s t
  subst hfn
  exact paginateAll_exhaustive_cu blobs limit hlim hnd hne

/-! ## Sample listings for the pager witnesses and counterexamples -/

/-- A listed blob with key `a`. -/
def blobKeyA : ListedBlob :=
  { pathname := "a", url := "u", downloadUrl := "u"
    uploadedAt := none, size := none }

/-- A listed blob with key `b`. -/
def blobKeyB : ListedBlob :=
  { pathname := "b", url := "u", downloadUrl := "u"
    uploadedAt := none, size := none }

/-- A listed blob with key `B`: under ICU collation it sorts after `a`,
under code-unit order before it. -/
def blobKeyBUpper : ListedBlob :=
  { pathname := "B", url := "u", downloadUrl := "u"
    uploadedAt := none, size := none }

/-- A listed blob with the empty key (reachable: the memory backend
stores under the normalized path, and `putBlobFromBuffer("")` stores the
empty key). -/
def blobKeyNil : ListedBlob :=
  { pathname := "", url := "u", downloadUrl := "u"
    uploadedAt := none, size := none }

unseal List.merge List.mergeSort

/-- With the cursor given as the empty string the pager does not start at
the first entry strictly greater than the cursor: it returns the entry
whose key equals the cursor (the source treats a falsy cursor as
absent). -/
theorem filterByCursor_empty_cursor_falsy :
    (filterByCursor jsStrLe [blobKeyNil] 1 (some "")).slice
      = [blobKeyNil] ∧
    jsStrLt "" blobKeyNil.pathname = false := by
  constructor
  · decide
  · decide

/-- With a candidate whose key is the empty string and limit 1, the first
page is `[""]` with `hasMore` true and next cursor `""`; feeding that
cursor back returns the identical page again, so the walk never reaches
`hasMore = false`. -/
theorem paginate_empty_key_repeats :
    (filterByCursor jsStrLe [blobKeyNil, blobKeyA] 1 none).slice
      = [blobKeyNil] ∧
    (filterByCursor jsStrLe [blobKeyNil, blobKeyA] 1 none).hasMore
      = true ∧
    (filterByCursor jsStrLe [blobKeyNil, blobKeyA] 1 none).nextCursor
      = some "" ∧
    (filterByCursor jsStrLe [blobKeyNil, blobKeyA] 1 (some "")).slice
      = [blobKeyNil] ∧
    (filterByCursor jsStrLe [blobKeyNil, blobKeyA] 1 (some "")).hasMore
      = true := by
  refine ⟨?_, ?_, ?_, ?_, ?_⟩ <;> decide

/-- C2 counterexample: the sort comparator is `localeCompare` (locale
collation: `a` before `B`, as `localeLeAscii` models), the cursor test is
code-unit `>`; with candidates keyed `a` and `B`, cursor `X` and limit 2
the page is `[a, B]`, although `B` is not strictly greater than the
cursor `X` in either order and the page is not ascending in the code-unit
key order — contradicting the claim's single-order description (which
also fails for an empty-string cursor, treated as absent: see
`filterByCursor_empty_cursor_falsy`). -/
theorem filterByCursor_order_mismatch_cex :
    localeLeAscii "a" "B" = true ∧
    jsStrLe "a" "B" = false ∧
    (filterByCursor localeLeAscii [blobKeyBUpper, blobKeyA] 2
        (some "X")).slice = [blobKeyA, blobKeyBUpper] ∧
    jsStrLt "X" blobKeyBUpper.pathname = false ∧
    localeLeAscii blobKeyBUpper.pathname "X" = true := by
  refine ⟨?_, ?_, ?_, ?_, ?_⟩ <;> decide

/-- C2 witness: with the collation instantiated to code-unit order, the
paging description holds at a concrete listing with a non-empty cursor. -/
theorem filterByCursor_locale_paging_witness :
    filterByCursor jsStrLe [blobKeyB, blobKeyA] 1 (some "a")
      = cursorPageSpec [blobKeyB, blobKeyA] 1 (some "a") :=
  ((filterByCursor_locale_paging jsStrLe [blobKeyB, blobKeyA] 1 (some "a")
      (fun s t u h1 h2 => jsStrLe_trans h1 h2) jsStrLe_total
      (by decide) (by decide)).2.2.2.2.2 fun s t => rfl).1

/-- C3 counterexample: the sort is `localeCompare` but the cursor
advances by code-unit `>`; with keys `B` and `a` (collation order `a`
before `B`) and limit 1, the first page is `[a]` with cursor `a`, and the
next call finds no key code-unit-greater than `a` (`B < a` in code
units), so the walk ends having never returned `B` — the concatenated
pages are not the candidate set. -/
theorem paginate_locale_drop_cex :
    localeLeAscii "a" "B" = true ∧
    jsStrLt "a" blobKeyBUpper.pathname = false ∧
    paginateAll localeLeAscii [blobKeyBUpper, blobKeyA] 1
      = some [[blobKeyA], []] ∧
    blobKeyBUpper ∉ [[blobKeyA], []].flatten := by
  refine ⟨?_, ?_, ?_, ?_⟩ <;> decide

/-- C3 witness: with the collation agreeing with code-unit order, the
cursor walk over two distinct non-empty keys with limit 1 terminates and
concatenates to the sorted candidates. -/
theorem paginateAll_agreement_witness :
    ∃ pages, paginateAll jsStrLe [blobKeyB, blobKeyA] 1 = some pages ∧
      pages.flatten = [blobKeyB, blobKeyA].mergeSort (blobCmp jsStrLe) ∧
      pages.flatten.Perm [blobKeyB, blobKeyA] ∧
      List.Pairwise (fun a b => jsStrLe a.pathname b.pathname = true)
        pages.flatten ∧
      (pages.flatten.map fun b => b.pathname).Nodup :=
  paginateAll_agreement_exhaustive jsStrLe (fun s t => rfl)
    [blobKeyB, blobKeyA] 1 (by decide) (by decide) (by decide)

/-! ## The percent-encoding round trip (for C1 and C4) -/

theorem char_toNat_valid (c : Char) :
    c.toNat < 0xD800 ∨ (0xDFFF < c.toNat ∧ c.toNat < 0x110000) := by
  rcases c.valid with h | ⟨h1, h2⟩
  · exact Or.inl h
  · exact Or.inr ⟨h1, h2⟩

theorem char_toNat_lt (c : Char) : c.toNat < 0x110000 := by
  rcases char_toNat_valid c with h | ⟨_, h⟩
  · omega
  · exact h

theorem charUtf8_lt_256 (c : Char) : ∀ b ∈ charUtf8 c, b < 256 := by
  have hlt := char_toNat_lt c
  intro b hb
  simp only [charUtf8] at hb
  by_cases h1 : c.toNat < 0x80
  · rw [if_pos h1] at hb
    simp only [List.mem_singleton] at hb
    omega
  · rw [if_neg h1] at hb
    by_cases h2 : c.toNat < 0x800
    · rw [if_pos h2] at hb
      simp only [List.mem_cons, List.not_mem_nil, or_false] at hb
      rcases hb with rfl | rfl <;> omega
    · rw [if_neg h2] at hb
      by_cases h3 : c.toNat < 0x10000
      · rw [if_pos h3] at hb
        simp only [List.mem_cons, List.not_mem_nil, or_false] at hb
        rcases hb with rfl | rfl | rfl <;> omega
      · rw [if_neg h3] at hb
        simp only [List.mem_cons, List.not_mem_nil, or_false] at hb
        rcases hb with rfl | rfl | rfl | rfl <;> omega

theorem hexVal_hexDigit : ∀ n < 16, hexVal (hexDigit n) = some n := by
  decide

theorem charUtf8_ne_nil (c : Char) : charUtf8 c ≠ [] := by
  simp only [charUtf8]
  by_cases h1 : c.toNat < 0x80
  · rw [if_pos h1]
    simp
  · rw [if_neg h1]
    by_cases h2 : c.toNat < 0x800
    · rw [if_pos h2]
      simp
    · rw [if_neg h2]
      by_cases h3 : c.toNat < 0x10000
      · rw [if_pos h3]
        simp
      · rw [if_neg h3]
        simp

theorem utf8DecodeOne_length (l : List Nat) (n : Nat) (rest2 : List Nat)
    (h : utf8DecodeOne l = some (n, rest2)) : rest2.length < l.length := by
  cases l with
  | nil => simp [utf8DecodeOne] at h
  | cons b rest =>
    simp only [utf8DecodeOne] at h
    repeat' split at h
    all_goals
      first
      | exact Option.noConfusion h
      | (simp only [Option.some.injEq, Prod.mk.injEq] at h
         obtain ⟨h1, h2⟩ := h
         subst h2
         simp only [List.length_cons]
         omega)

theorem utf8DecodeAux_sufficient : ∀ (fuel : Nat) (l : List Nat),
    l.length ≤ fuel → utf8DecodeAux fuel l = utf8Decode l := by
  intro fuel
  induction fuel using Nat.strong_induction_on with
  | _ fuel ih =>
    intro l hl
    cases l with
    | nil =>
      cases fuel with
      | zero => rfl
      | succ f => rfl
    | cons b rest =>
      cases fuel with
      | zero => simp at hl
      | succ f =>
        rw [utf8Decode]
        simp only [List.length_cons] at hl ⊢
        simp only [utf8DecodeAux]
        cases hone : utf8DecodeOne (b :: rest) with
        | none => rfl
        | some pair =>
          obtain ⟨n, rest2⟩ := pair
          have hlen := utf8DecodeOne_length (b :: rest) n rest2 hone
          simp only [List.length_cons] at hlen
          dsimp only
          rw [ih f (by omega) rest2 (by omega)]
          rw [ih rest.length (by omega) rest2 (by omega)]

theorem utf8DecodeOne_charUtf8 (c : Char) (bs : List Nat) :
    utf8DecodeOne (charUtf8 c ++ bs) = some (c.toNat, bs) := by
  have hvalid := char_toNat_valid c
  have hlt := char_toNat_lt c
  simp only [charUtf8]
  by_cases h1 : c.toNat < 0x80
  · rw [if_pos h1, List.singleton_append]
    simp only [utf8DecodeOne]
    rw [if_pos h1]
  · rw [if_neg h1]
    by_cases h2 : c.toNat < 0x800
    · rw [if_pos h2, List.cons_append, List.cons_append, List.nil_append]
      simp only [utf8DecodeOne]
      rw [if_neg (by omega), if_neg (by omega), if_pos (by omega)]
      rw [if_pos (by
        simp only [isCont, Bool.and_eq_true, decide_eq_true_eq]
        omega)]
      have harg : (0xC0 + c.toNat / 64 - 0xC0) * 64 +
          (0x80 + c.toNat % 64 - 0x80) = c.toNat := by
        omega
      rw [harg]
    · rw [if_neg h2]
      by_cases h3 : c.toNat < 0x10000
      · rw [if_pos h3, List.cons_append, List.cons_append, List.cons_append,
          List.nil_append]
        simp only [utf8DecodeOne]
        rw [if_neg (by omega), if_neg (by omega), if_neg (by omega),
          if_pos (by omega)]
        have harg : (0xE0 + c.toNat / 4096 - 0xE0) * 4096 +
            (0x80 + c.toNat / 64 % 64 - 0x80) * 64 +
            (0x80 + c.toNat % 64 - 0x80) = c.toNat := by
          omega
        rw [if_pos (by
          simp only [harg, isCont, Bool.and_eq_true, Bool.not_eq_true',
            Bool.and_eq_false_iff, decide_eq_true_eq, decide_eq_false_iff_not]
          omega)]
        rw [harg]
      · rw [if_neg h3, List.cons_append, List.cons_append, List.cons_append,
          List.cons_append, List.nil_append]
        simp only [utf8DecodeOne]
        rw [if_neg (by omega), if_neg (by omega), if_neg (by omega),
          if_neg (by omega), if_pos (by omega)]
        have harg : (0xF0 + c.toNat / 262144 - 0xF0) * 262144 +
            (0x80 + c.toNat / 4096 % 64 - 0x80) * 4096 +
            (0x80 + c.toNat / 64 % 64 - 0x80) * 64 +
            (0x80 + c.toNat % 64 - 0x80) = c.toNat := by
          omega
        rw [if_pos (by
          simp only [harg, isCont, Bool.and_eq_true, decide_eq_true_eq]
          omega)]
        rw [harg]

theorem utf8Decode_append_charUtf8 (c : Char) (bs : List Nat) :
    utf8Decode (charUtf8 c ++ bs) = (utf8Decode bs).map fun cs => c :: cs := by
  cases hcu : charUtf8 c with
  | nil => exact absurd hcu (charUtf8_ne_nil c)
  | cons b cu =>
    rw [utf8Decode, List.cons_append, List.length_cons]
    simp only [utf8DecodeAux]
    have hone : utf8DecodeOne (b :: (cu ++ bs)) = some (c.toNat, bs) := by
      rw [← List.cons_append, ← hcu]
      exact utf8DecodeOne_charUtf8 c bs
    rw [hone]
    dsimp only
    rw [Char.ofNat_toNat]
    rw [utf8DecodeAux_sufficient (cu ++ bs).length bs (by simp)]

theorem utf8Decode_flatMap : ∀ l : List Char,
    utf8Decode ((l.map charUtf8).flatten) = some l
  | [] => rfl
  | c :: l => by
    rw [List.map_cons, List.flatten_cons, utf8Decode_append_charUtf8,
      utf8Decode_flatMap l]
    rfl

theorem jsSplit_ne_nil (sep : Char) : ∀ l : List Char, jsSplit sep l ≠ []
  | [] => by simp [jsSplit]
  | c :: rest => by
    simp only [jsSplit]
    by_cases h : c = sep
    · rw [if_pos h]
      simp
    · rw [if_neg h]
      cases jsSplit sep rest with
      | nil => simp
      | cons s ss => simp

theorem joinSep_cons_prepend (sep : Char) (a s : List Char)
    (ss : List (List Char)) :
    joinSep sep ((a ++ s) :: ss) = a ++ joinSep sep (s :: ss) := by
  cases ss with
  | nil => rfl
  | cons t ts => simp [joinSep, List.append_assoc]

/-- Derived characterisation of the per-character effect of
`encodePathForUrl`: `/` survives, every other character goes through
`encodeURIComponent`. -/
def encCharKeepSlash (c : Char) : List Char :=
  if c = '/' then ['/'] else encChar c

theorem encodePath_eq_flatMap : ∀ L : List Char,
    joinSep '/' ((jsSplit '/' L).map fun seg => (seg.map encChar).flatten) =
      (L.map encCharKeepSlash).flatten
  | [] => rfl
  | c :: rest => by
    have ih := encodePath_eq_flatMap rest
    simp only [jsSplit]
    by_cases h : c = '/'
    · rw [if_pos h]
      subst h
      cases hr : jsSplit '/' rest with
      | nil => exact absurd hr (jsSplit_ne_nil '/' rest)
      | cons s ss =>
        rw [hr] at ih
        simp only [List.map_cons] at ih ⊢
        simp only [List.map_nil, List.flatten_nil, joinSep, List.nil_append]
        rw [ih]
        simp [encCharKeepSlash]
    · rw [if_neg h]
      cases hr : jsSplit '/' rest with
      | nil => exact absurd hr (jsSplit_ne_nil '/' rest)
      | cons s ss =>
        rw [hr] at ih
        dsimp only
        simp only [List.map_cons, List.flatten_cons] at ih ⊢
        rw [joinSep_cons_prepend, ih]
        simp [encCharKeepSlash, h]

theorem uriTranslate_pctByte (b : Nat) (hb : b < 256) (l : List Char) :
    uriTranslate (pctByte b ++ l) = (uriTranslate l).map fun bs => b :: bs := by
  simp only [pctByte, List.cons_append, List.nil_append]
  rw [uriTranslate.eq_def]
  dsimp only
  rw [if_pos rfl]
  rw [hexVal_hexDigit (b / 16) (by omega), hexVal_hexDigit (b % 16) (by omega)]
  dsimp only
  have hb16 : b / 16 * 16 + b % 16 = b := by omega
  rw [hb16]

theorem isUnreserved_ne_percent (c : Char) (h : isUnreservedChar c = true) :
    c ≠ '%' := by
  intro hc
  subst hc
  exact absurd h (by decide)

theorem uriTranslate_encChar (c : Char) (l : List Char) :
    uriTranslate (encChar c ++ l) =
      (uriTranslate l).map fun bs => charUtf8 c ++ bs := by
  by_cases h : isUnreservedChar c
  · rw [encChar, if_pos h, List.singleton_append]
    rw [uriTranslate.eq_def]
    dsimp only
    rw [if_neg (isUnreserved_ne_percent c h)]
  · rw [encChar, if_neg h]
    have hlt := charUtf8_lt_256 c
    have key : ∀ (byts : List Nat), (∀ b ∈ byts, b < 256) →
        uriTranslate ((byts.map pctByte).flatten ++ l) =
          (uriTranslate l).map fun bs => byts ++ bs := by
      intro byts
      induction byts with
      | nil =>
        intro _
        simp
      | cons b bs ih =>
        intro hbs
        rw [List.map_cons, List.flatten_cons, List.append_assoc]
        rw [uriTranslate_pctByte b (hbs b (by simp)) _]
        rw [ih fun x hx => hbs x (by simp [hx])]
        rw [Option.map_map]
        rfl
    exact key (charUtf8 c) hlt

theorem uriTranslate_flatMapKeepSlash : ∀ L : List Char,
    uriTranslate ((L.map encCharKeepSlash).flatten) =
      some ((L.map charUtf8).flatten)
  | [] => rfl
  | c :: rest => by
    rw [List.map_cons, List.flatten_cons]
    by_cases h : c = '/'
    · subst h
      rw [encCharKeepSlash, if_pos rfl, List.singleton_append]
      rw [uriTranslate.eq_def]
      dsimp only
      rw [if_neg (by decide)]
      rw [uriTranslate_flatMapKeepSlash rest]
      rfl
    · rw [encCharKeepSlash, if_neg h]
      rw [uriTranslate_encChar, uriTranslate_flatMapKeepSlash rest]
      rfl

theorem decode_encodePath (p : String) :
    decodeURIComponentStr (encodePathForUrl p) = some p := by
  rw [decodeURIComponentStr, encodePathForUrl]
  show (uriTranslate
      (joinSep '/' ((jsSplit '/' p.toList).map
        fun seg => (seg.map encChar).flatten))).bind _ = some p
  rw [encodePath_eq_flatMap p.toList]
  rw [uriTranslate_flatMapKeepSlash p.toList]
  show (utf8Decode ((p.toList.map charUtf8).flatten)).map
      (fun cs => String.mk cs) = some p
  rw [utf8Decode_flatMap p.toList]
  rfl

theorem buildProxyUrl_no_override (env : Env)
    (hov : getSecretM env "PUBLIC_STORAGE_BASE_URL" = none) (k : String) :
    buildProxyUrl env k = blobProxyRoot ++ encodePathForUrl (normalizePath k) := by
  simp only [buildProxyUrl, hov]

theorem proxied_ne_empty (e : String) : blobProxyRoot ++ e ≠ "" := by
  intro h
  have h2 : blobProxyRoot.toList ++ e.toList = ([] : List Char) :=
    congrArg String.toList h
  exact absurd (List.append_eq_nil.mp h2).1 (by decide)

theorem proxied_not_data (e : String) :
    jsStartsWith (blobProxyRoot ++ e) "data:" = false := by
  rw [jsStartsWith]
  have h1 : (blobProxyRoot ++ e).toList
      = '/' :: ("api/blob/".toList ++ e.toList) := rfl
  have h2 : ("data:" : String).toList = 'd' :: "ata:".toList := rfl
  rw [h1, h2]
  simp [List.isPrefixOf]

theorem proxied_starts_with_root (e : String) :
    jsStartsWith (blobProxyRoot ++ e) blobProxyRoot = true := by
  rw [jsStartsWith]
  have h1 : (blobProxyRoot ++ e).toList
      = blobProxyRoot.toList ++ e.toList := rfl
  rw [h1, List.isPrefixOf_iff_prefix]
  exact List.prefix_append _ _

theorem strDrop_proxied (e : String) :
    strDrop (blobProxyRoot ++ e) blobProxyRoot.toList.length = e := by
  rw [strDrop]
  have h1 : (blobProxyRoot ++ e).toList
      = blobProxyRoot.toList ++ e.toList := rfl
  rw [h1, List.drop_left]
  rfl

theorem extract_buildProxy (env : Env)
    (hov : getSecretM env "PUBLIC_STORAGE_BASE_URL" = none) (k : String) :
    extractPathFromUrl env (buildProxyUrl env k)
      = .ok (some (normalizePath k)) := by
  rw [buildProxyUrl_no_override env hov k]
  unfold extractPathFromUrl
  rw [if_neg (proxied_ne_empty _), if_neg (by simp [proxied_not_data]),
    if_pos (proxied_starts_with_root _)]
  rw [strDrop_proxied, decode_encodePath]

/-- C4 (amended: with no public base-URL override configured, the extractor
inverts the builder on every key, and returns null for every data-URI input
and for every absolute http(s) input the URL parser rejects; a parseable
absolute http(s) URL whose path does not start with the proxy prefix is
instead treated as an already-normalised key, not mapped to null). -/
theorem proxy_url_codec (env : Env)
    (hov : getSecretM env "PUBLIC_STORAGE_BASE_URL" = none) :
    (∀ k : String, extractPathFromUrl env (buildProxyUrl env k)
        = .ok (some (normalizePath k))) ∧
    (∀ s : String, jsStartsWith s "data:" = true →
      extractPathFromUrl env s = .ok none) ∧
    (∀ s : String, s ≠ "" → jsStartsWith s "data:" = false →
      jsStartsWith s blobProxyRoot = false → httpTest s = true →
      urlParse s = none → extractPathFromUrl env s = .ok none) ∧
    (∀ (s : String) (u : UrlParts), s ≠ "" →
      jsStartsWith s "data:" = false →
      jsStartsWith s blobProxyRoot = false → httpTest s = true →
      urlParse s = some u →
      jsStartsWith u.pathname blobProxyRoot = false →
      extractPathFromUrl env s = .ok (some (normalizePath s))) := by
  refine ⟨fun k => extract_buildProxy env hov k, ?_, ?_, ?_⟩
  · intro s hs
    have hne : s ≠ "" := by
      intro h
      subst h
      exact absurd hs (by decide)
    unfold extractPathFromUrl
    rw [if_neg hne, if_pos hs]
  · intro s h1 h2 h3 h4 h5
    unfold extractPathFromUrl
    rw [if_neg h1, if_neg (by simp [h2]), if_neg (by simp [h3]), if_pos h4, h5]
  · intro s u h1 h2 h3 h4 h5 h6
    unfold extractPathFromUrl
    rw [if_neg h1, if_neg (by simp [h2]), if_neg (by simp [h3]), if_pos h4, h5]
    dsimp only
    rw [if_neg (by simp [h6]), hov]

/-- C4 witness: with the memory configuration (no override), the codec
round-trips the key `a b/c.txt`, a data URI maps to null and the
unparsable `http://` maps to null. -/
theorem proxy_url_codec_witness :
    getSecretM envMemory "PUBLIC_STORAGE_BASE_URL" = none ∧
    extractPathFromUrl envMemory (buildProxyUrl envMemory "a b/c.txt")
      = .ok (some (normalizePath "a b/c.txt")) ∧
    extractPathFromUrl envMemory "data:text/plain;base64,AAA" = .ok none ∧
    extractPathFromUrl envMemory "http://" = .ok none :=
  ⟨rfl,
   (proxy_url_codec envMemory rfl).1 "a b/c.txt",
   (proxy_url_codec envMemory rfl).2.1 "data:text/plain;base64,AAA" (by decide),
   (proxy_url_codec envMemory rfl).2.2.1 "http://" (by decide) (by decide)
     (by decide) (by decide) (by decide)⟩

/-- C4 counterexample: `http://example.com/foo` parses, its path is not
proxy-prefixed, yet (with no override configured) the extractor returns the
normalised input as a key rather than null. -/
theorem extract_http_nonproxy_cex :
    httpTest "http://example.com/foo" = true ∧
    urlParse "http://example.com/foo"
      = some { origin := "http://example.com", pathname := "/foo" } ∧
    jsStartsWith "/foo" blobProxyRoot = false ∧
    extractPathFromUrl envMemory "http://example.com/foo"
      = .ok (some "http://example.com/foo") ∧
    extractPathFromUrl envMemory "http://example.com/foo"
      ≠ .ok none := by
  refine ⟨by decide, by decide, by decide, rfl, ?_⟩
  intro h
  rw [show extractPathFromUrl envMemory "http://example.com/foo"
      = .ok (some "http://example.com/foo") from rfl] at h
  injection h with h2
  exact Option.noConfusion h2

